import Mathlib

/-!
# Stack-based infix → postfix calculator (`calculator.c`)

A shallow embedding of the converter (`infixToPostfix`), the evaluator
(`evaluatePostfix`) and the per-line step of `main`, followed by theorems about
them.

Modelling conventions
* A C string is the list of its characters; reading stops at the first NUL
  character or at the end of the list, whichever comes first.
* The two global linked-list stacks `opStack` and `valStack` are lists whose head
  is the top node; every function that touches a global takes it as an argument
  and returns its new value.
* `int` is 32 bits wide and `long` 64 bits wide, two's complement.  Overflow of
  `+`, `-` and `*` wraps around (`wrapInt`).  `atoi` is `(int) strtol`: the value of a
  digit run saturates at `LONG_MAX` before it is cut down to an `int`.
* The one division without a quotient in `int`, `INT_MIN / -1`, faults and the process
  is killed.  `applyOp`, `evalToken`, `evalLoop`, `evaluatePostfix`, `processLine` and
  `calculate` describe the run for as long as the process lives; `applyOpRun` and the
  other `…Run` functions are the same code with the fault, `none` standing for the
  killed process.
* `malloc` is assumed to succeed.
-/

namespace Calculator

/-! ## Machine integers and `<ctype.h>` -/

/-- Smallest value of a C `int`. -/
def INT_MIN : Int := -2147483648

/-- Largest value of a C `int`. -/
def INT_MAX : Int := 2147483647

/-- Smallest value of a C `long`. -/
def LONG_MIN : Int := -9223372036854775808

/-- Largest value of a C `long`. -/
def LONG_MAX : Int := 9223372036854775807

/-- Reduction of a mathematical integer to the 32-bit two's complement `int`. -/
def wrapInt (x : Int) : Int := (x + 2147483648) % 4294967296 - 2147483648

/-- `isspace` in the C locale: space, and the controls `\t \n \v \f \r`. -/
def isspace (c : Char) : Bool := c.toNat = 32 || (9 ≤ c.toNat && c.toNat ≤ 13)

/-- `isdigit`: the ten characters `0` … `9`. -/
def isdigit (c : Char) : Bool := 48 ≤ c.toNat && c.toNat ≤ 57

/-- `strchr(s, c) != NULL`: `c` occurs in `s`, the terminator included. -/
def strchr (s : List Char) (c : Char) : Bool := s.contains c || c = '\x00'

/-- The string literal `"+-*/"`. -/
def operators : List Char := ['+', '-', '*', '/']

/-- The characters of a C string held in a buffer: everything before the first NUL. -/
def cstr (buf : List Char) : List Char := buf.takeWhile (fun c => c ≠ '\x00')

/-! ## Stack functions -/

/-- `pushChar`: a new node on top of `opStack`. -/
def pushChar (c : Char) (opStack : List Char) : List Char := c :: opStack

/-- `popChar`: the top character and the remaining stack; NUL on an empty stack. -/
def popChar : List Char → Char × List Char
  | [] => ('\x00', [])
  | data :: link => (data, link)

/-- `peekChar`: the top character, NUL on an empty stack. -/
def peekChar : List Char → Char
  | [] => '\x00'
  | data :: _ => data

/-- `pushInt`: a new node on top of `valStack`. -/
def pushInt (val : Int) (valStack : List Int) : List Int := val :: valStack

/-- `popInt`: the top value and the remaining stack; `0` on an empty stack. -/
def popInt : List Int → Int × List Int
  | [] => (0, [])
  | data :: link => (data, link)

/-- `clearCharStack`: `while (opStack != NULL) popChar();`. -/
def clearCharStack : List Char → List Char
  | [] => []
  | _ :: link => clearCharStack link

/-- `clearIntStack`: `while (valStack != NULL) popInt();`. -/
def clearIntStack : List Int → List Int
  | [] => []
  | _ :: link => clearIntStack link

/-! ## Helper functions -/

/-- `precedence`. -/
def precedence (op : Char) : Int :=
  if op = '+' ∨ op = '-' then 1
  else if op = '*' ∨ op = '/' then 2
  else 0

/-- `applyOp`: the result and the new value of `*err`.  For `a = INT_MIN`, `b = -1`
and `op = '/'` the process does not survive the call (see `applyOpRun`); the pair
given here for that case is never observed. -/
def applyOp (a b : Int) (op : Char) (err : Int) : Int × Int :=
  if op = '+' then (wrapInt (a + b), err)
  else if op = '-' then (wrapInt (a - b), err)
  else if op = '*' then (wrapInt (a * b), err)
  else if op = '/' then
    if b = 0 then (0, 1) else (wrapInt (Int.tdiv a b), err)
  else (0, err)

/-! ## Infix to postfix -/

/-- The loop of the `)` branch:
`while (peekChar() != '(' && peekChar() != '\0') { emit popChar(); emit ' '; }`.
Returns the output and the stack. -/
def closeLoop : List Char → List Char → List Char × List Char
  | [], pfx => (pfx, [])
  | data :: link, pfx =>
    if peekChar (data :: link) ≠ '(' ∧ peekChar (data :: link) ≠ '\x00' then
      closeLoop link (pfx ++ [(popChar (data :: link)).1, ' '])
    else (pfx, data :: link)

/-- The loop of the operator branch:
`while (opStack != NULL && peekChar() != '(' && precedence(peekChar()) >= precedence(token))`. -/
def operatorLoop (token : Char) : List Char → List Char → List Char × List Char
  | [], pfx => (pfx, [])
  | data :: link, pfx =>
    if peekChar (data :: link) ≠ '(' ∧ precedence (peekChar (data :: link)) ≥ precedence token then
      operatorLoop token link (pfx ++ [(popChar (data :: link)).1, ' '])
    else (pfx, data :: link)

/-- The loop after the scan: `while (peekChar() != '\0') { emit popChar(); emit ' '; }`. -/
def drainLoop : List Char → List Char → List Char × List Char
  | [], pfx => (pfx, [])
  | data :: link, pfx =>
    if peekChar (data :: link) ≠ '\x00' then
      drainLoop link (pfx ++ [(popChar (data :: link)).1, ' '])
    else (pfx, data :: link)

/-- The main `while ((token = infix[i]) != '\0')` loop.  The first argument bounds
the number of iterations; every iteration consumes at least one character, so the
length of the input is enough.  Returns the output written so far and the stack. -/
def infixLoop : Nat → List Char → List Char → List Char → List Char × List Char
  | 0, _, pfx, opStack => (pfx, opStack)
  | _ + 1, [], pfx, opStack => (pfx, opStack)
  | fuel + 1, token :: rest, pfx, opStack =>
    if token = '\x00' then (pfx, opStack)
    else if isspace token then infixLoop fuel rest pfx opStack
    else if isdigit token then
      infixLoop fuel ((token :: rest).dropWhile isdigit)
        (pfx ++ (token :: rest).takeWhile isdigit ++ [' ']) opStack
    else if token = '(' then infixLoop fuel rest pfx (pushChar token opStack)
    else if token = ')' then
      infixLoop fuel rest (closeLoop opStack pfx).1
        (popChar (closeLoop opStack pfx).2).2
    else if strchr operators token then
      infixLoop fuel rest (operatorLoop token opStack pfx).1
        (pushChar token (operatorLoop token opStack pfx).2)
    else infixLoop fuel rest pfx opStack

/-- `if (j > 0 && postfix[j-1] == ' ') j--;`. -/
def trimTrailingSpace (pfx : List Char) : List Char :=
  if pfx.getLast? = some ' ' then pfx.dropLast else pfx

/-- `infixToPostfix`: the postfix text and the operator stack left behind. -/
def infixToPostfix (ifx : List Char) (opStack : List Char) : List Char × List Char :=
  let scanned := infixLoop ifx.length ifx [] opStack
  let drained := drainLoop scanned.2 scanned.1
  (trimTrailingSpace drained.1, drained.2)

/-! ## Postfix evaluation -/

/-- The tokens that `strtok(postfix, " ")` and the following `strtok(NULL, " ")`
calls return: the maximal runs of characters other than the space.  The second
argument is the token being collected. -/
def strtokFrom : List Char → List Char → List (List Char)
  | [], cur => if cur = [] then [] else [cur]
  | c :: rest, cur =>
    if c = ' ' then
      if cur = [] then strtokFrom rest [] else cur :: strtokFrom rest []
    else strtokFrom rest (cur ++ [c])

/-- All tokens of a C string. -/
def strtok (s : List Char) : List (List Char) := strtokFrom (cstr s) []

/-- The digits read by `atoi` after the sign, accumulated in base ten. -/
def atoiDigits : List Char → Int → Int
  | [], acc => acc
  | c :: cs, acc => if isdigit c then atoiDigits cs (acc * 10 + (c.toNat - 48 : Nat)) else acc

/-- `strtol(s, NULL, 10)`: optional white space, optional sign, then the leading
digits; a value outside the range of `long` is replaced by `LONG_MIN` or `LONG_MAX`. -/
def strtol (s : List Char) : Int :=
  match s.dropWhile isspace with
  | '-' :: t => max LONG_MIN (-(atoiDigits t 0))
  | '+' :: t => min LONG_MAX (atoiDigits t 0)
  | t => min LONG_MAX (atoiDigits t 0)

/-- `atoi`: `(int) strtol(s, NULL, 10)`. -/
def atoi (s : List Char) : Int := wrapInt (strtol s)

/-- The body of the token loop of `evaluatePostfix` on one token: either the
function returns (`.error` with the returned value, `*err` and the value stack), or
the loop goes on (`.ok` with `*err` and the value stack). -/
def evalToken (token : List Char) (err : Int) (valStack : List Int) :
    Except (Int × Int × List Int) (Int × List Int) :=
  if isdigit (token.getD 0 '\x00') ∨
      (token.getD 0 '\x00' = '-' ∧ isdigit (token.getD 1 '\x00')) then
    .ok (err, pushInt (atoi token) valStack)
  else if token.length = 1 ∧ strchr operators (token.getD 0 '\x00') then
    let b := popInt valStack
    let a := popInt b.2
    let result := applyOp a.1 b.1 (token.getD 0 '\x00') err
    if result.2 ≠ 0 then .error (0, result.2, a.2)
    else .ok (result.2, pushInt result.1 a.2)
  else .error (0, 1, valStack)

/-- The token loop of `evaluatePostfix` followed by `return popInt();`: the returned
value, `*err` and the value stack. -/
def evalLoop : List (List Char) → Int → List Int → Int × Int × List Int
  | [], err, valStack => ((popInt valStack).1, err, (popInt valStack).2)
  | token :: rest, err, valStack =>
    match evalToken token err valStack with
    | .error returned => returned
    | .ok next => evalLoop rest next.1 next.2

/-- The token loop run over the first tokens only: `.ok` with `*err` and the value
stack when the loop is still running after them, `.error` when it has returned. -/
def evalPrefix : List (List Char) → Int → List Int →
    Except (Int × Int × List Int) (Int × List Int)
  | [], err, valStack => .ok (err, valStack)
  | token :: rest, err, valStack =>
    match evalToken token err valStack with
    | .error returned => .error returned
    | .ok next => evalPrefix rest next.1 next.2

/-- `evaluatePostfix`: the returned value, `*err` and the value stack. -/
def evaluatePostfix (pfx : List Char) (err : Int) (valStack : List Int) :
    Int × Int × List Int :=
  evalLoop (strtok pfx) err valStack

/-! ## The per-line step of `main` -/

/-- The error text `main` writes. -/
def errorText : String := "Error: Invalid expression or division by zero\n"

/-- The line written to the sink: the error text, or the result as `%d`. -/
def outputLine (result error : Int) : String :=
  if error ≠ 0 then errorText else toString result ++ "\n"

/-- What one iteration of the `while (fgets ...)` loop leaves behind. -/
structure LineResult where
  pfx : List Char
  result : Int
  error : Int
  opStack : List Char
  valStack : List Int
deriving DecidableEq, Repr

/-- One iteration of the loop of `main` on the characters `fgets` stored in `line`. -/
def processLine (line : List Char) (opStack : List Char) (valStack : List Int) : LineResult :=
  let opStack1 := clearCharStack opStack
  let valStack1 := clearIntStack valStack
  let line1 := (cstr line).takeWhile (fun c => c ≠ '\n')
  let converted := infixToPostfix line1 opStack1
  let evaluated := evaluatePostfix converted.1 0 valStack1
  { pfx := converted.1, result := evaluated.1, error := evaluated.2.1,
    opStack := converted.2, valStack := evaluated.2.2 }

/-- The text written for one line. -/
def lineOutput (line : List Char) (opStack : List Char) (valStack : List Int) : String :=
  outputLine (processLine line opStack valStack).result (processLine line opStack valStack).error

/-- Conversion followed by evaluation from empty stacks: the returned value and the
error flag. -/
def calculate (line : List Char) : Int × Int :=
  let evaluated := evaluatePostfix (infixToPostfix line []).1 0 []
  (evaluated.1, evaluated.2.1)

/-! ## The run with the fault of `INT_MIN / -1`

The same functions once more, with `none` for the process killed at `return a / b;`. -/

/-- `applyOp` as the process runs it: `none` when `a / b` is `INT_MIN / -1`, which has
no quotient in `int` and kills the process; otherwise the result and `*err`. -/
def applyOpRun (a b : Int) (op : Char) (err : Int) : Option (Int × Int) :=
  if op = '+' then some (wrapInt (a + b), err)
  else if op = '-' then some (wrapInt (a - b), err)
  else if op = '*' then some (wrapInt (a * b), err)
  else if op = '/' then
    if b = 0 then some (0, 1)
    else if a = INT_MIN ∧ b = -1 then none
    else some (wrapInt (Int.tdiv a b), err)
  else some (0, err)

/-- The body of the token loop of `evaluatePostfix` on one token: `none` when the
process is killed, otherwise as `evalToken`. -/
def evalTokenRun (token : List Char) (err : Int) (valStack : List Int) :
    Option (Except (Int × Int × List Int) (Int × List Int)) :=
  if isdigit (token.getD 0 '\x00') ∨
      (token.getD 0 '\x00' = '-' ∧ isdigit (token.getD 1 '\x00')) then
    some (.ok (err, pushInt (atoi token) valStack))
  else if token.length = 1 ∧ strchr operators (token.getD 0 '\x00') then
    let b := popInt valStack
    let a := popInt b.2
    match applyOpRun a.1 b.1 (token.getD 0 '\x00') err with
    | none => none
    | some result =>
      if result.2 ≠ 0 then some (.error (0, result.2, a.2))
      else some (.ok (result.2, pushInt result.1 a.2))
  else some (.error (0, 1, valStack))

/-- The token loop of `evaluatePostfix` followed by `return popInt();`: `none` when
the process is killed, otherwise the returned value, `*err` and the value stack. -/
def evalLoopRun : List (List Char) → Int → List Int → Option (Int × Int × List Int)
  | [], err, valStack => some ((popInt valStack).1, err, (popInt valStack).2)
  | token :: rest, err, valStack =>
    match evalTokenRun token err valStack with
    | none => none
    | some (.error returned) => some returned
    | some (.ok next) => evalLoopRun rest next.1 next.2

/-- `evaluatePostfix` as the process runs it. -/
def evaluatePostfixRun (pfx : List Char) (err : Int) (valStack : List Int) :
    Option (Int × Int × List Int) :=
  evalLoopRun (strtok pfx) err valStack

/-- One iteration of the loop of `main` as the process runs it: `none` when the
process is killed during the evaluation. -/
def processLineRun (line : List Char) (opStack : List Char) (valStack : List Int) :
    Option LineResult :=
  let opStack1 := clearCharStack opStack
  let valStack1 := clearIntStack valStack
  let line1 := (cstr line).takeWhile (fun c => c ≠ '\n')
  let converted := infixToPostfix line1 opStack1
  match evaluatePostfixRun converted.1 0 valStack1 with
  | none => none
  | some evaluated =>
    some { pfx := converted.1, result := evaluated.1, error := evaluated.2.1,
           opStack := converted.2, valStack := evaluated.2.2 }

/-- The text written for one line, `none` when the process is killed on it. -/
def lineOutputRun (line : List Char) (opStack : List Char) (valStack : List Int) :
    Option String :=
  match processLineRun line opStack valStack with
  | none => none
  | some done => some (outputLine done.result done.error)

/-- The lines written by `main` for the successive reads, from the given stacks;
`none` when the process is killed on one of them, in which case nothing is said about
what has reached the sink. -/
def mainRun : List (List Char) → List Char → List Int → Option (List String)
  | [], _, _ => some []
  | line :: more, opStack, valStack =>
    match processLineRun line opStack valStack with
    | none => none
    | some done =>
      match mainRun more done.opStack done.valStack with
      | none => none
      | some written => some (outputLine done.result done.error :: written)

/-- Conversion followed by evaluation from empty stacks as the process runs it: `none`
when it is killed, otherwise the returned value and the error flag. -/
def calculateRun (line : List Char) : Option (Int × Int) :=
  match evaluatePostfixRun (infixToPostfix line []).1 0 [] with
  | none => none
  | some evaluated => some (evaluated.1, evaluated.2.1)

/-- The texts of a run of lines processed one by one, `none` as soon as one of them
kills the process. -/
def collectWritten : List (Option String) → Option (List String)
  | [] => some []
  | none :: _ => none
  | some text :: rest =>
    match collectWritten rest with
    | none => none
    | some written => some (text :: written)

/-! ## Vocabulary of the proofs -/

/-- The four operator characters. -/
def IsOperator (c : Char) : Prop := c = '+' ∨ c = '-' ∨ c = '*' ∨ c = '/'

instance (c : Char) : Decidable (IsOperator c) := by
  unfold IsOperator; infer_instance

/-- The scan loop of `infixToPostfix` with the iteration bound it is run with. -/
def scan (input pfx opStack : List Char) : List Char × List Char :=
  infixLoop input.length input pfx opStack

/-- The text written when the characters `ops` are popped one after the other: each
is followed by a space. -/
def emitOps : List Char → List Char
  | [] => []
  | c :: cs => c :: ' ' :: emitOps cs

/-- The text written for a sequence of tokens: each is followed by a space. -/
def emitAll : List (List Char) → List Char
  | [] => []
  | t :: ts => t ++ ' ' :: emitAll ts

/-- Tokens separated by single spaces. -/
def joinSp : List (List Char) → List Char
  | [] => []
  | [t] => t
  | t :: u :: ts => t ++ ' ' :: joinSp (u :: ts)

/-- Loop condition of the `)` branch, on the top character. -/
def closeCond (c : Char) : Bool := decide (c ≠ '(' ∧ c ≠ '\x00')

/-- Loop condition of the operator branch against precedence `q`, on the top
character. -/
def flushCond (q : Int) (c : Char) : Bool := decide (c ≠ '(' ∧ precedence c ≥ q)

/-- Loop condition of the final loop, on the top character. -/
def drainCond (c : Char) : Bool := decide (c ≠ '\x00')

/-- The characters the operator stack may hold. -/
def IsStackChar (c : Char) : Prop := IsOperator c ∨ c = '('

/-- Every character on the stack is an operator or an opening parenthesis. -/
def ValidStack (s : List Char) : Prop := ∀ c ∈ s, IsStackChar c

/-- The text does not begin with a digit. -/
def StartsClean (rest : List Char) : Prop := ∀ c ∈ rest.head?, isdigit c = false

/-! ## Well-formed input lines and their standard value -/

/-- Parse tree of an input line.  Every token carries the white space written in
front of it: `num ws digits` is a literal, `paren ws1 e ws2` is `( e )` with `ws1`
before the opening and `ws2` before the closing parenthesis, `bin l ws op r` is
`l op r` with `ws` before the operator. -/
inductive Expr where
  | num (ws : List Char) (digits : List Char)
  | paren (ws1 : List Char) (e : Expr) (ws2 : List Char)
  | bin (l : Expr) (ws : List Char) (op : Char) (r : Expr)
deriving DecidableEq, Repr

namespace Expr

/-- The input text of a parse tree. -/
def render : Expr → List Char
  | num ws digits => ws ++ digits
  | paren ws1 e ws2 => ws1 ++ '(' :: (render e ++ (ws2 ++ [')']))
  | bin l ws op r => render l ++ (ws ++ op :: render r)

/-- Binding strength of the outermost construct: `1` for a sum or difference, `2`
for a product or quotient, `3` for a literal or a parenthesised expression. -/
def level : Expr → Int
  | num _ _ => 3
  | paren _ _ _ => 3
  | bin _ _ op _ => if op = '+' ∨ op = '-' then 1 else 2

/-- The standard grammar: literals are non-empty digit runs, white space is white
space, `+ -` take a sum on the left and a product on the right, `* /` take a product
on the left and a literal or parenthesised expression on the right. -/
def wellFormed : Expr → Bool
  | num ws digits => ws.all isspace && !digits.isEmpty && digits.all isdigit
  | paren ws1 e ws2 => ws1.all isspace && ws2.all isspace && wellFormed e
  | bin l ws op r =>
    ws.all isspace && decide (IsOperator op) && wellFormed l && wellFormed r &&
      decide (level (bin l ws op r) ≤ level l) && decide (level (bin l ws op r) < level r)

/-- Post-order traversal: left operand, right operand, operator. -/
def postTokens : Expr → List (List Char)
  | num _ digits => [digits]
  | paren _ e _ => postTokens e
  | bin l _ op r => postTokens l ++ postTokens r ++ [[op]]

end Expr

/-- The four operations of standard integer arithmetic, division truncating toward
zero and undefined on a zero divisor. -/
def standardOp (op : Char) (a b : Int) : Option Int :=
  if op = '+' then some (a + b)
  else if op = '-' then some (a - b)
  else if op = '*' then some (a * b)
  else if op = '/' then (if b = 0 then none else some (Int.tdiv a b))
  else none

/-- The number a digit run denotes in base ten. -/
def literalValue (digits : List Char) : Nat :=
  digits.foldl (fun n c => 10 * n + (c.toNat - 48)) 0

namespace Expr

/-- Value under standard arithmetic over the integers, division truncating toward
zero; `none` when a division by zero occurs. -/
def value : Expr → Option Int
  | num _ digits => some (literalValue digits)
  | paren _ e _ => value e
  | bin l _ op r =>
    match value l, value r with
    | some a, some b => standardOp op a b
    | _, _ => none

/-- Every literal and every intermediate value lies in the range of `int`. -/
def fitsInt : Expr → Bool
  | num _ digits => decide ((literalValue digits : Int) ≤ INT_MAX)
  | paren _ e _ => fitsInt e
  | bin l ws op r =>
    fitsInt l && fitsInt r &&
      match value (bin l ws op r) with
      | some v => decide (INT_MIN ≤ v ∧ v ≤ INT_MAX)
      | none => true

end Expr

/-- The top of the stack is not popped by the operator loop at precedence `q`: the
stack is empty, or its top is `(` or binds weaker than `q`. -/
def LowTop (q : Int) (s : List Char) : Prop := ∀ c ∈ s.head?, flushCond q c = false

/-- A token that survives `strtok` unchanged: non-empty, without space or NUL. -/
def CleanToken (t : List Char) : Prop := t ≠ [] ∧ ∀ c ∈ t, c ≠ ' ' ∧ c ≠ '\x00'

/-- A token the converter can write: a non-empty digit run, or one operator or
opening parenthesis. -/
def IsPostfixToken (t : List Char) : Prop :=
  (t ≠ [] ∧ ∀ c ∈ t, isdigit c = true) ∨ ∃ c, IsStackChar c ∧ t = [c]

/-- Number of opening parentheses still waiting for their closing parenthesis after
the line has been read, `d` of them being open at the start.  A closing parenthesis
closes the most recent open one, if any. -/
def openCount : List Char → Nat → Nat
  | [], d => d
  | c :: rest, d =>
    if c = '\x00' then d
    else if c = '(' then openCount rest (d + 1)
    else if c = ')' then openCount rest (d - 1)
    else openCount rest d

/-- Some closing parenthesis of the line has no opening parenthesis to close, `d`
being open at the start. -/
def unmatchedClose : List Char → Nat → Bool
  | [], _ => false
  | c :: rest, d =>
    if c = '\x00' then false
    else if c = '(' then unmatchedClose rest (d + 1)
    else if c = ')' then (if d = 0 then true else unmatchedClose rest (d - 1))
    else unmatchedClose rest d

/-- A non-negative integer literal: a non-empty run of digits. -/
def IsLiteral (d : List Char) : Prop := d ≠ [] ∧ ∀ c ∈ d, isdigit c = true

instance (d : List Char) : Decidable (IsLiteral d) := by
  unfold IsLiteral; infer_instance

/-- No two neighbouring characters of the text are both spaces. -/
def noDoubleSpace : List Char → Bool
  | a :: b :: rest => !(a = ' ' && b = ' ') && noDoubleSpace (b :: rest)
  | _ => true

/-- One iteration of the main loop of `infixToPostfix` on the unread input, the output
written so far and the operator stack: `none` when the loop ends, otherwise the three
after the iteration. -/
def infixIter (input pfx opStack : List Char) : Option (List Char × List Char × List Char) :=
  match input with
  | [] => none
  | token :: rest =>
    if token = '\x00' then none
    else if isspace token then some (rest, pfx, opStack)
    else if isdigit token then
      some ((token :: rest).dropWhile isdigit,
        pfx ++ (token :: rest).takeWhile isdigit ++ [' '], opStack)
    else if token = '(' then some (rest, pfx, pushChar token opStack)
    else if token = ')' then
      some (rest, (closeLoop opStack pfx).1, (popChar (closeLoop opStack pfx).2).2)
    else if strchr operators token then
      some (rest, (operatorLoop token opStack pfx).1,
        pushChar token (operatorLoop token opStack pfx).2)
    else some (rest, pfx, opStack)

/-- The unread input, the output and the operator stack after `k` iterations of the
main loop, `none` when the loop has ended before. -/
def infixAfter : Nat → List Char → List Char → List Char →
    Option (List Char × List Char × List Char)
  | 0, input, pfx, opStack => some (input, pfx, opStack)
  | k + 1, input, pfx, opStack =>
    match infixIter input pfx opStack with
    | none => none
    | some next => infixAfter k next.1 next.2.1 next.2.2

/-- The text begins with white space whose first following character is a digit. -/
def gapThenDigit (rest : List Char) : Bool :=
  match rest with
  | [] => false
  | c :: _ =>
    isspace c &&
      match rest.dropWhile isspace with
      | [] => false
      | d :: _ => isdigit d

/-- Some white space of the line stands between two digits: a digit, then one or more
white-space characters, then a digit. -/
def splitsNumber : List Char → Bool
  | [] => false
  | c :: rest => (isdigit c && gapThenDigit rest) || splitsNumber rest

/-- The line with all white-space characters deleted. -/
def deleteSpace (line : List Char) : List Char := line.filter (fun c => !isspace c)

/-- `MAX`, the size of the line buffer of `main`. -/
def MAX : Nat := 100

/-- The text the converter has written when the final loop ends, before the trailing
space is dropped and the terminator is stored. -/
def writtenText (line opStack : List Char) : List Char :=
  (drainLoop (scan line [] opStack).2 (scan line [] opStack).1).1

/-- A number token: its first character is a digit, or it is `-` followed by a
digit. -/
def isNumberToken (t : List Char) : Bool :=
  isdigit (t.getD 0 '\x00') || (t.getD 0 '\x00' = '-' && isdigit (t.getD 1 '\x00'))

/-- An operator token: a single character among `+ - * /`. -/
def isOperatorToken (t : List Char) : Bool :=
  t = ['+'] || t = ['-'] || t = ['*'] || t = ['/']

/-- The scan of the tokens, from the value stack `vs` with the error flag clear,
reaches a `/` token while the most recently pushed value is 0, or a token that is
neither a number nor an operator. -/
def errorReachedStated : List (List Char) → List Int → Bool
  | [], _ => false
  | t :: rest, vs =>
    if (t = ['/'] ∧ vs.head? = some 0) ∨
        (isNumberToken t = false ∧ isOperatorToken t = false) then true
    else
      match evalToken t 0 vs with
      | .ok next => errorReachedStated rest next.2
      | .error _ => false

/-- The scan of the tokens, from the value stack `vs` with the error flag clear,
reaches a `/` token while the most recently pushed value is 0 or the value stack is
empty, or a token that is neither a number nor an operator. -/
def errorReached : List (List Char) → List Int → Bool
  | [], _ => false
  | t :: rest, vs =>
    if (t = ['/'] ∧ (vs.head? = some 0 ∨ vs = [])) ∨
        (isNumberToken t = false ∧ isOperatorToken t = false) then true
    else
      match evalToken t 0 vs with
      | .ok next => errorReached rest next.2
      | .error _ => false

/-! ## Character classes -/

theorem isdigit_iff (c : Char) : isdigit c = true ↔ 48 ≤ c.toNat ∧ c.toNat ≤ 57 := by
  simp [isdigit]

theorem isspace_iff (c : Char) :
    isspace c = true ↔ c.toNat = 32 ∨ (9 ≤ c.toNat ∧ c.toNat ≤ 13) := by
  simp [isspace]

theorem isdigit_not_isspace {c : Char} (h : isdigit c = true) : isspace c = false := by
  rw [isdigit_iff] at h
  cases hs : isspace c with
  | false => rfl
  | true => rw [isspace_iff] at hs; omega

theorem ne_of_isdigit {c d : Char} (h : isdigit c = true) (hd : isdigit d = false) :
    c ≠ d := by
  intro hcd
  rw [hcd, hd] at h
  cases h

theorem ne_of_isspace {c d : Char} (h : isspace c = true) (hd : isspace d = false) :
    c ≠ d := by
  intro hcd
  rw [hcd, hd] at h
  cases h

theorem isdigit_not_strchr {c : Char} (h : isdigit c = true) :
    strchr operators c = false := by
  have h1 := ne_of_isdigit h (d := '+') (by decide)
  have h2 := ne_of_isdigit h (d := '-') (by decide)
  have h3 := ne_of_isdigit h (d := '*') (by decide)
  have h4 := ne_of_isdigit h (d := '/') (by decide)
  have h5 := ne_of_isdigit h (d := '\x00') (by decide)
  simp [strchr, operators, h1, h2, h3, h4, h5, Ne.symm h1, Ne.symm h2, Ne.symm h3, Ne.symm h4]

theorem strchr_of_isOperator {c : Char} (h : IsOperator c) : strchr operators c = true := by
  rcases h with h | h | h | h <;> subst h <;> decide

theorem isOperator_of_strchr {c : Char} (h : strchr operators c = true) (h0 : c ≠ '\x00') :
    IsOperator c := by
  simp [strchr, operators, h0] at h
  rcases h with h | h | h | h <;> simp [IsOperator, h]

theorem isOperator_facts {c : Char} (h : IsOperator c) :
    c ≠ '\x00' ∧ isspace c = false ∧ isdigit c = false ∧ c ≠ '(' ∧ c ≠ ')' ∧ c ≠ ' ' ∧
      1 ≤ precedence c := by
  rcases h with h | h | h | h <;> subst h <;> decide

theorem precedence_nonneg (c : Char) : 0 ≤ precedence c := by
  unfold precedence
  split
  · decide
  · split <;> decide

/-! ## The scan loop does not depend on its iteration bound -/

theorem length_dropWhile_le_self (p : Char → Bool) (l : List Char) :
    (l.dropWhile p).length ≤ l.length := by
  induction l with
  | nil => simp
  | cons a l ih =>
    simp only [List.dropWhile_cons]
    split
    · simp only [List.length_cons]; omega
    · exact Nat.le_refl _

theorem infixLoop_fuel (f1 : Nat) : ∀ (f2 : Nat) (input p s : List Char),
    input.length ≤ f1 → input.length ≤ f2 →
    infixLoop f1 input p s = infixLoop f2 input p s := by
  induction f1 with
  | zero =>
    intro f2 input p s h1 _
    have : input = [] := List.length_eq_zero.mp (Nat.le_zero.mp h1)
    subst this
    cases f2 <;> simp [infixLoop]
  | succ f1 ih =>
    intro f2 input p s h1 h2
    cases input with
    | nil => cases f2 <;> simp [infixLoop]
    | cons token rest =>
      cases f2 with
      | zero => simp at h2
      | succ f2 =>
        simp only [List.length_cons, Nat.add_le_add_iff_right] at h1 h2
        have hd := length_dropWhile_le_self isdigit rest
        simp only [infixLoop]
        split_ifs with h0 hs hdg
        · rfl
        · exact ih _ _ _ _ h1 h2
        · simp only [List.dropWhile_cons, hdg, if_true]
          exact ih _ _ _ _ (Nat.le_trans hd h1) (Nat.le_trans hd h2)
        all_goals exact ih _ _ _ _ h1 h2

theorem scan_nil (p s : List Char) : scan [] p s = (p, s) := by
  simp [scan, infixLoop]

theorem scan_cons (token : Char) (rest p s : List Char) :
    scan (token :: rest) p s =
      if token = '\x00' then (p, s)
      else if isspace token then scan rest p s
      else if isdigit token then
        scan ((token :: rest).dropWhile isdigit)
          (p ++ (token :: rest).takeWhile isdigit ++ [' ']) s
      else if token = '(' then scan rest p (pushChar token s)
      else if token = ')' then
        scan rest (closeLoop s p).1 (popChar (closeLoop s p).2).2
      else if strchr operators token then
        scan rest (operatorLoop token s p).1 (pushChar token (operatorLoop token s p).2)
      else scan rest p s := by
  simp only [scan, List.length_cons, infixLoop]
  split_ifs with h0 hs hdg
  · rfl
  · rfl
  · apply infixLoop_fuel
    · simp only [List.dropWhile_cons, hdg, if_true]
      exact length_dropWhile_le_self isdigit rest
    · exact Nat.le_refl _
  all_goals rfl

/-! ## The three popping loops -/

theorem emitOps_append (a b : List Char) : emitOps (a ++ b) = emitOps a ++ emitOps b := by
  induction a with
  | nil => rfl
  | cons c cs ih => simp [emitOps, ih]

theorem emitAll_append (a b : List (List Char)) :
    emitAll (a ++ b) = emitAll a ++ emitAll b := by
  induction a with
  | nil => rfl
  | cons c cs ih => simp [emitAll, ih]

theorem emitAll_singletons (ops : List Char) :
    emitAll (ops.map fun c => [c]) = emitOps ops := by
  induction ops with
  | nil => rfl
  | cons c cs ih => simp [emitAll, emitOps, ih]

theorem closeLoop_eq (s : List Char) : ∀ p : List Char,
    closeLoop s p = (p ++ emitOps (s.takeWhile closeCond), s.dropWhile closeCond) := by
  induction s with
  | nil => intro p; simp [closeLoop, emitOps]
  | cons c cs ih =>
    intro p
    simp only [closeLoop, peekChar, popChar, List.takeWhile_cons, List.dropWhile_cons]
    by_cases h : c ≠ '(' ∧ c ≠ '\x00'
    · have hc : closeCond c = true := by simp [closeCond, h]
      rw [if_pos h, ih, hc]
      simp [emitOps]
    · have hc : closeCond c = false := by simp only [closeCond, decide_eq_false_iff_not]; exact h
      rw [if_neg h, hc]
      simp [emitOps]

theorem operatorLoop_eq (token : Char) (s : List Char) : ∀ p : List Char,
    operatorLoop token s p =
      (p ++ emitOps (s.takeWhile (flushCond (precedence token))),
        s.dropWhile (flushCond (precedence token))) := by
  induction s with
  | nil => intro p; simp [operatorLoop, emitOps]
  | cons c cs ih =>
    intro p
    simp only [operatorLoop, peekChar, popChar, List.takeWhile_cons, List.dropWhile_cons]
    by_cases h : c ≠ '(' ∧ precedence c ≥ precedence token
    · have hc : flushCond (precedence token) c = true := by simp [flushCond, h]
      rw [if_pos h, ih, hc]
      simp [emitOps]
    · have hc : flushCond (precedence token) c = false := by
        simp only [flushCond, decide_eq_false_iff_not]; exact h
      rw [if_neg h, hc]
      simp [emitOps]

theorem drainLoop_eq (s : List Char) : ∀ p : List Char,
    drainLoop s p = (p ++ emitOps (s.takeWhile drainCond), s.dropWhile drainCond) := by
  induction s with
  | nil => intro p; simp [drainLoop, emitOps]
  | cons c cs ih =>
    intro p
    simp only [drainLoop, peekChar, popChar, List.takeWhile_cons, List.dropWhile_cons]
    by_cases h : c ≠ '\x00'
    · have hc : drainCond c = true := by simp [drainCond, h]
      rw [if_pos h, ih, hc]
      simp [emitOps]
    · have hc : drainCond c = false := by
        simp only [drainCond, decide_eq_false_iff_not]; exact h
      rw [if_neg h, hc]
      simp [emitOps]

theorem isStackChar_ne_nul {c : Char} (h : IsStackChar c) : c ≠ '\x00' := by
  rcases h with h | h
  · exact (isOperator_facts h).1
  · subst h; decide

theorem takeWhile_eq_self_of_forall {p : Char → Bool} {l : List Char}
    (h : ∀ c ∈ l, p c = true) : l.takeWhile p = l ∧ l.dropWhile p = [] := by
  induction l with
  | nil => simp
  | cons a l ih =>
    have ha := h a (List.mem_cons_self _ _)
    have := ih (fun c hc => h c (List.mem_cons_of_mem _ hc))
    simp [List.takeWhile_cons, List.dropWhile_cons, ha, this]

theorem takeWhile_congr_mem {p q : Char → Bool} {l : List Char}
    (h : ∀ c ∈ l, p c = q c) : l.takeWhile p = l.takeWhile q ∧ l.dropWhile p = l.dropWhile q := by
  induction l with
  | nil => simp
  | cons a l ih =>
    have ha := h a (List.mem_cons_self _ _)
    have := ih (fun c hc => h c (List.mem_cons_of_mem _ hc))
    simp [List.takeWhile_cons, List.dropWhile_cons, ha, this]

theorem drainLoop_valid {s : List Char} (hs : ValidStack s) (p : List Char) :
    drainLoop s p = (p ++ emitOps s, []) := by
  rw [drainLoop_eq]
  have := takeWhile_eq_self_of_forall (p := drainCond) (l := s)
    (fun c hc => by simp [drainCond, isStackChar_ne_nul (hs c hc)])
  rw [this.1, this.2]

theorem closeCond_eq_flushCond {c : Char} (h : IsStackChar c) :
    closeCond c = flushCond 0 c := by
  have h0 := isStackChar_ne_nul h
  have hp := precedence_nonneg c
  simp [closeCond, flushCond, h0, hp]

theorem closeLoop_valid {s : List Char} (hs : ValidStack s) (p : List Char) :
    closeLoop s p = (p ++ emitOps (s.takeWhile (flushCond 0)), s.dropWhile (flushCond 0)) := by
  rw [closeLoop_eq]
  have := takeWhile_congr_mem (p := closeCond) (q := flushCond 0) (l := s)
    (fun c hc => closeCond_eq_flushCond (hs c hc))
  rw [this.1, this.2]

/-! ## One token at a time -/

theorem span_digits {ds rest : List Char} (hds : ∀ c ∈ ds, isdigit c = true)
    (hrest : StartsClean rest) :
    (ds ++ rest).takeWhile isdigit = ds ∧ (ds ++ rest).dropWhile isdigit = rest := by
  induction ds with
  | nil =>
    cases rest with
    | nil => simp
    | cons r rs =>
      have hr : isdigit r = false := hrest r (by simp)
      simp [List.takeWhile_cons, List.dropWhile_cons, hr]
  | cons d ds ih =>
    have hd := hds d (List.mem_cons_self _ _)
    have := ih (fun c hc => hds c (List.mem_cons_of_mem _ hc))
    simp [List.takeWhile_cons, List.dropWhile_cons, hd, this]

theorem scan_space {c : Char} (hc : isspace c = true) (rest p s : List Char) :
    scan (c :: rest) p s = scan rest p s := by
  rw [scan_cons, if_neg (ne_of_isspace hc (by decide)), if_pos hc]

theorem scan_spaces {ws : List Char} (hws : ∀ c ∈ ws, isspace c = true) (rest p s : List Char) :
    scan (ws ++ rest) p s = scan rest p s := by
  induction ws with
  | nil => rfl
  | cons w ws ih =>
    rw [List.cons_append, scan_space (hws w (List.mem_cons_self _ _))]
    exact ih (fun c hc => hws c (List.mem_cons_of_mem _ hc))

theorem scan_digits {ds : List Char} (hne : ds ≠ []) (hds : ∀ c ∈ ds, isdigit c = true)
    {rest : List Char} (hrest : StartsClean rest) (p s : List Char) :
    scan (ds ++ rest) p s = scan rest (p ++ ds ++ [' ']) s := by
  cases ds with
  | nil => exact absurd rfl hne
  | cons d ds =>
    have hd := hds d (List.mem_cons_self _ _)
    have hsp := span_digits hds hrest
    rw [List.cons_append, scan_cons, if_neg (ne_of_isdigit hd (by decide)),
      isdigit_not_isspace hd, if_neg (by simp), if_pos hd, ← List.cons_append, hsp.1, hsp.2]

theorem scan_open (rest p s : List Char) : scan ('(' :: rest) p s = scan rest p ('(' :: s) := by
  rw [scan_cons]
  simp [isspace, isdigit, pushChar]

theorem scan_close (rest p s : List Char) :
    scan (')' :: rest) p s = scan rest (closeLoop s p).1 (popChar (closeLoop s p).2).2 := by
  rw [scan_cons]
  simp [isspace, isdigit]

theorem scan_operator {op : Char} (hop : IsOperator op) (rest p s : List Char) :
    scan (op :: rest) p s =
      scan rest (p ++ emitOps (s.takeWhile (flushCond (precedence op))))
        (op :: s.dropWhile (flushCond (precedence op))) := by
  have h := isOperator_facts hop
  rw [scan_cons, if_neg h.1, h.2.1, if_neg (by simp), h.2.2.1, if_neg (by simp),
    if_neg h.2.2.2.1, if_neg h.2.2.2.2.1, if_pos (strchr_of_isOperator hop), operatorLoop_eq]
  rfl

/-! ## The converter on well-formed lines -/

theorem lowTop_takeWhile {q : Int} {s : List Char} (h : LowTop q s) :
    s.takeWhile (flushCond q) = [] ∧ s.dropWhile (flushCond q) = s := by
  cases s with
  | nil => simp
  | cons c cs =>
    have := h c (by simp)
    simp [List.takeWhile_cons, List.dropWhile_cons, this]

theorem flushCond_mono {q q' : Int} (hq : q ≤ q') {c : Char} (h : flushCond q c = false) :
    flushCond q' c = false := by
  simp only [flushCond, decide_eq_false_iff_not, not_and, ge_iff_le, not_le] at h ⊢
  intro hne
  have := h hne
  omega

theorem flushCond_anti {q q' : Int} (hq : q ≤ q') {c : Char} (h : flushCond q' c = true) :
    flushCond q c = true := by
  simp only [flushCond, decide_eq_true_eq, ge_iff_le] at h ⊢
  exact ⟨h.1, Int.le_trans hq h.2⟩

theorem lowTop_mono {q q' : Int} (hq : q ≤ q') {s : List Char} (h : LowTop q s) :
    LowTop q' s := fun c hc => flushCond_mono hq (h c hc)

theorem takeWhile_append_of_forall {f : Char → Bool} {a : List Char} (b : List Char)
    (h : ∀ c ∈ a, f c = true) :
    (a ++ b).takeWhile f = a ++ b.takeWhile f ∧ (a ++ b).dropWhile f = b.dropWhile f := by
  induction a with
  | nil => simp
  | cons x a ih =>
    have hx := h x (List.mem_cons_self _ _)
    have := ih (fun c hc => h c (List.mem_cons_of_mem _ hc))
    simp [List.takeWhile_cons, List.dropWhile_cons, hx, this]

theorem level_eq_precedence {l r : Expr} {ws : List Char} {op : Char} (hop : IsOperator op) :
    (Expr.bin l ws op r).level = precedence op := by
  rcases hop with h | h | h | h <;> subst h <;> simp [Expr.level, precedence]

theorem startsClean_of_cons {c : Char} (h : isdigit c = false) (rest : List Char) :
    StartsClean (c :: rest) := by
  intro d hd
  simp at hd
  subst hd
  exact h

theorem startsClean_spaces {ws : List Char} (hws : ∀ c ∈ ws, isspace c = true) {c : Char}
    (h : isdigit c = false) (rest : List Char) : StartsClean (ws ++ c :: rest) := by
  cases ws with
  | nil => exact startsClean_of_cons h rest
  | cons w ws =>
    apply startsClean_of_cons
    have hw := hws w (List.mem_cons_self _ _)
    cases hd : isdigit w with
    | false => rfl
    | true => rw [isdigit_not_isspace hd] at hw; cases hw

theorem one_le_level (e : Expr) : 1 ≤ e.level := by
  cases e with
  | num ws ds => show (1 : Int) ≤ 3; decide
  | paren ws1 e ws2 => show (1 : Int) ≤ 3; decide
  | bin l ws op r =>
    simp only [Expr.level]
    split_ifs <;> decide

theorem scan_expr (e : Expr) : e.wellFormed = true →
    ∀ (rest p s : List Char), StartsClean rest → ValidStack s →
    ∃ p' s', scan (e.render ++ rest) p s = scan rest p' s' ∧ ValidStack s' ∧
      ∀ q : Int, q ≤ e.level → LowTop q s →
        p' ++ emitOps (s'.takeWhile (flushCond q)) = p ++ emitAll e.postTokens ∧
        s'.dropWhile (flushCond q) = s := by
  induction e with
  | num ws ds =>
    intro hwf rest p s hrest hs
    simp only [Expr.wellFormed, Bool.and_eq_true, List.all_eq_true, Bool.not_eq_true',
      List.isEmpty_eq_false] at hwf
    obtain ⟨⟨hws, hne⟩, hds⟩ := hwf
    refine ⟨p ++ ds ++ [' '], s, ?_, hs, ?_⟩
    · simp only [Expr.render, List.append_assoc]
      rw [scan_spaces hws, scan_digits hne hds hrest]
      simp
    · intro q _ hq
      have := lowTop_takeWhile hq
      simp [this, emitOps, emitAll, Expr.postTokens]
  | paren ws1 e ws2 ih =>
    intro hwf rest p s _ hs
    simp only [Expr.wellFormed, Bool.and_eq_true, List.all_eq_true] at hwf
    obtain ⟨⟨hws1, hws2⟩, hwe⟩ := hwf
    have hs1 : ValidStack ('(' :: s) := by
      intro c hc
      rcases List.mem_cons.mp hc with h | h
      · exact Or.inr h
      · exact hs c h
    obtain ⟨p1, s1, hscan, hv1, hflush⟩ :=
      ih hwe (ws2 ++ ')' :: rest) p ('(' :: s) (startsClean_spaces hws2 (by decide) rest) hs1
    have hlow : LowTop 0 ('(' :: s) := by
      intro c hc
      simp at hc
      subst hc
      decide
    have hlev : (0 : Int) ≤ e.level := Int.le_trans (by decide) (one_le_level e)
    obtain ⟨hp1, hd1⟩ := hflush 0 hlev hlow
    refine ⟨p ++ emitAll e.postTokens, s, ?_, hs, ?_⟩
    · simp only [Expr.render, List.append_assoc, List.cons_append, List.nil_append]
      rw [scan_spaces hws1, scan_open, hscan, scan_spaces hws2, scan_close, closeLoop_valid hv1,
        hp1, hd1]
      rfl
    · intro q _ hq
      have := lowTop_takeWhile hq
      simp [this, emitOps, Expr.postTokens]
  | bin l ws op r ihl ihr =>
    intro hwf rest p s hrest hs
    simp only [Expr.wellFormed, Bool.and_eq_true, List.all_eq_true, decide_eq_true_eq] at hwf
    obtain ⟨⟨⟨⟨⟨hws, hop⟩, hwl⟩, hwr⟩, hll⟩, hlr⟩ := hwf
    rw [level_eq_precedence hop] at hll hlr
    have hopf := isOperator_facts hop
    obtain ⟨p1, s1, hscan1, hv1, hflush1⟩ :=
      ihl hwl (ws ++ op :: (r.render ++ rest)) p s (startsClean_spaces hws hopf.2.2.1 _) hs
    obtain ⟨p2, hp2⟩ : ∃ p2, p2 = p1 ++ emitOps (s1.takeWhile (flushCond (precedence op))) :=
      ⟨_, rfl⟩
    obtain ⟨d2, hd2⟩ : ∃ d2, d2 = s1.dropWhile (flushCond (precedence op)) := ⟨_, rfl⟩
    have hs2 : ValidStack (op :: d2) := by
      intro c hc
      rcases List.mem_cons.mp hc with h | h
      · exact Or.inl (h ▸ hop)
      · rw [hd2] at h
        exact hv1 c ((List.dropWhile_sublist _).subset h)
    obtain ⟨p3, s3, hscan3, hv3, hflush3⟩ := ihr hwr rest p2 (op :: d2) hrest hs2
    refine ⟨p3, s3, ?_, hv3, ?_⟩
    · simp only [Expr.render, List.append_assoc, List.cons_append, List.nil_append]
      rw [hscan1, scan_spaces hws, scan_operator hop, ← hp2, ← hd2, hscan3]
    · intro q hq hlow
      rw [level_eq_precedence hop] at hq
      obtain ⟨h1a, h1b⟩ := hflush1 (precedence op) hll (lowTop_mono hq hlow)
      rw [← hp2] at h1a
      rw [← hd2] at h1b
      have hlow2 : LowTop r.level (op :: d2) := by
        intro c hc
        simp at hc
        subst hc
        simp only [flushCond, decide_eq_false_iff_not, not_and, ge_iff_le, not_le]
        exact fun _ => hlr
      obtain ⟨h3a, h3b⟩ := hflush3 r.level (Int.le_refl _) hlow2
      obtain ⟨A, hA⟩ : ∃ A, A = s3.takeWhile (flushCond r.level) := ⟨_, rfl⟩
      have hsplit : s3 = A ++ op :: s := by
        rw [hA, ← h1b, ← h3b]
        exact (List.takeWhile_append_dropWhile _ _).symm
      rw [← hA] at h3a
      have hqr : q ≤ r.level := Int.le_trans hq (Int.le_of_lt hlr)
      have hAq : ∀ c ∈ A, flushCond q c = true := by
        intro c hc
        rw [hA] at hc
        exact flushCond_anti hqr (List.mem_takeWhile_imp hc)
      have hopq : flushCond q op = true := by
        simp only [flushCond, decide_eq_true_eq, ge_iff_le]
        exact ⟨hopf.2.2.2.1, hq⟩
      have happ := takeWhile_append_of_forall (op :: s) hAq
      have hl := lowTop_takeWhile hlow
      rw [hsplit, happ.1, happ.2]
      simp only [List.takeWhile_cons, List.dropWhile_cons, hopq, if_true, hl.1, hl.2]
      refine ⟨?_, trivial⟩
      rw [emitOps_append, ← List.append_assoc, h3a, h1a]
      simp [Expr.postTokens, emitAll_append, emitAll, emitOps]

/-! ## From the emitted text back to tokens -/

theorem emitAll_eq_joinSp (t : List Char) (ts : List (List Char)) :
    emitAll (t :: ts) = joinSp (t :: ts) ++ [' '] := by
  induction ts generalizing t with
  | nil => simp [emitAll, joinSp]
  | cons u ts ih =>
    rw [emitAll, ih u]
    simp [joinSp]

theorem trimTrailingSpace_emitAll (toks : List (List Char)) :
    trimTrailingSpace (emitAll toks) = joinSp toks := by
  cases toks with
  | nil => simp [trimTrailingSpace, emitAll, joinSp]
  | cons t ts =>
    rw [emitAll_eq_joinSp]
    simp [trimTrailingSpace]

theorem strtokFrom_append {t : List Char} (ht : ∀ c ∈ t, c ≠ ' ') (rest cur : List Char) :
    strtokFrom (t ++ rest) cur = strtokFrom rest (cur ++ t) := by
  induction t generalizing cur with
  | nil => simp
  | cons c t ih =>
    have hc := ht c (List.mem_cons_self _ _)
    rw [List.cons_append, strtokFrom, if_neg hc, ih (fun d hd => ht d (List.mem_cons_of_mem _ hd))]
    simp

theorem strtokFrom_joinSp (ts : List (List Char)) : ∀ (t cur : List Char),
    (∀ u ∈ t :: ts, CleanToken u) →
    strtokFrom (joinSp (t :: ts)) cur = (cur ++ t) :: ts := by
  induction ts with
  | nil =>
    intro t cur h
    have ht := h t (List.mem_cons_self _ _)
    have := strtokFrom_append (fun c hc => (ht.2 c hc).1) [] cur
    rw [List.append_nil] at this
    rw [joinSp, this, strtokFrom, if_neg]
    simp [ht.1]
  | cons u ts ih =>
    intro t cur h
    have ht := h t (List.mem_cons_self _ _)
    have hrest : ∀ v ∈ u :: ts, CleanToken v := fun v hv => h v (List.mem_cons_of_mem _ hv)
    rw [joinSp, strtokFrom_append (fun c hc => (ht.2 c hc).1), strtokFrom, if_pos rfl, if_neg,
      ih u [] hrest]
    · simp
    · simp [ht.1]

theorem joinSp_no_nul (ts : List (List Char)) (h : ∀ u ∈ ts, CleanToken u) :
    ∀ c ∈ joinSp ts, c ≠ '\x00' := by
  induction ts with
  | nil => intro c hc; simp [joinSp] at hc
  | cons t ts ih =>
    have ht := h t (List.mem_cons_self _ _)
    have hrest : ∀ v ∈ ts, CleanToken v := fun v hv => h v (List.mem_cons_of_mem _ hv)
    cases ts with
    | nil => intro c hc; exact (ht.2 c (by simpa [joinSp] using hc)).2
    | cons u ts =>
      intro c hc
      simp only [joinSp, List.mem_append, List.mem_cons] at hc
      rcases hc with hc | hc | hc
      · exact (ht.2 c hc).2
      · subst hc; decide
      · exact ih hrest c hc

theorem strtok_joinSp (ts : List (List Char)) (h : ∀ u ∈ ts, CleanToken u) :
    strtok (joinSp ts) = ts := by
  have hc : cstr (joinSp ts) = joinSp ts := by
    unfold cstr
    exact (takeWhile_eq_self_of_forall
      (fun c hc => by simpa using joinSp_no_nul ts h c hc)).1
  rw [strtok, hc]
  cases ts with
  | nil => simp [joinSp, strtokFrom]
  | cons t ts => simpa using strtokFrom_joinSp ts t [] h

theorem infixToPostfix_eq (line opStack : List Char) :
    infixToPostfix line opStack =
      (trimTrailingSpace (drainLoop (scan line [] opStack).2 (scan line [] opStack).1).1,
        (drainLoop (scan line [] opStack).2 (scan line [] opStack).1).2) := rfl

theorem startsClean_of_spaces {ws : List Char} (hws : ∀ c ∈ ws, isspace c = true) :
    StartsClean ws := by
  cases ws with
  | nil => intro c hc; simp at hc
  | cons w ws =>
    apply startsClean_of_cons
    have hw := hws w (List.mem_cons_self _ _)
    cases hd : isdigit w with
    | false => rfl
    | true => rw [isdigit_not_isspace hd] at hw; cases hw

/-- The converter on a well-formed line, from an empty operator stack: the post-order
tokens separated by single spaces, and an empty stack. -/
theorem infixToPostfix_render (e : Expr) (hwf : e.wellFormed = true) (wsEnd : List Char)
    (hws : ∀ c ∈ wsEnd, isspace c = true) :
    infixToPostfix (e.render ++ wsEnd) [] = (joinSp e.postTokens, []) := by
  obtain ⟨p1, s1, hscan, hv1, hflush⟩ :=
    scan_expr e hwf wsEnd [] [] (startsClean_of_spaces hws) (fun c hc => by simp at hc)
  obtain ⟨hp, hd⟩ := hflush 0 (Int.le_trans (by decide) (one_le_level e))
    (fun c hc => by simp at hc)
  have hsplit := List.takeWhile_append_dropWhile (flushCond 0) s1
  rw [hd, List.append_nil] at hsplit
  rw [hsplit, List.nil_append] at hp
  have hend : scan wsEnd p1 s1 = (p1, s1) := by
    have := scan_spaces hws [] p1 s1
    rwa [List.append_nil, scan_nil] at this
  rw [infixToPostfix_eq, hscan, hend, drainLoop_valid hv1, hp, trimTrailingSpace_emitAll]

/-! ## The evaluator on post-order tokens -/

theorem wrapInt_of_fits {x : Int} (h1 : INT_MIN ≤ x) (h2 : x ≤ INT_MAX) : wrapInt x = x := by
  unfold INT_MIN at h1
  unfold INT_MAX at h2
  unfold wrapInt
  omega

theorem wrapInt_range (x : Int) : INT_MIN ≤ wrapInt x ∧ wrapInt x ≤ INT_MAX := by
  unfold INT_MIN INT_MAX wrapInt
  omega

theorem atoiDigits_eq (ds : List Char) (hds : ∀ c ∈ ds, isdigit c = true) : ∀ n : Nat,
    atoiDigits ds (n : Int) = ((ds.foldl (fun n c => 10 * n + (c.toNat - 48)) n : Nat) : Int) := by
  induction ds with
  | nil => intro n; rfl
  | cons c cs ih =>
    intro n
    have hc := hds c (List.mem_cons_self _ _)
    rw [atoiDigits, if_pos hc, List.foldl_cons,
      ← ih (fun d hd => hds d (List.mem_cons_of_mem _ hd))]
    congr 1
    push_cast
    ring

theorem strtol_digits {ds : List Char} (hne : ds ≠ []) (hds : ∀ c ∈ ds, isdigit c = true) :
    strtol ds = min LONG_MAX (literalValue ds) := by
  cases ds with
  | nil => exact absurd rfl hne
  | cons c cs =>
    have hc := hds c (List.mem_cons_self _ _)
    have hval := atoiDigits_eq (c :: cs) hds 0
    unfold strtol
    rw [List.dropWhile_cons, isdigit_not_isspace hc]
    simp only [Bool.false_eq_true, if_false]
    split
    · rename_i t heq
      exact absurd (List.cons.inj heq).1 (ne_of_isdigit hc (by decide))
    · rename_i t heq
      exact absurd (List.cons.inj heq).1 (ne_of_isdigit hc (by decide))
    · rw [literalValue]
      exact congrArg (min LONG_MAX) hval

theorem atoi_digits {ds : List Char} (hne : ds ≠ []) (hds : ∀ c ∈ ds, isdigit c = true) :
    atoi ds = wrapInt (min LONG_MAX (literalValue ds)) := by
  rw [atoi, strtol_digits hne hds]

theorem atoi_digits_of_fits {ds : List Char} (hne : ds ≠ [])
    (hds : ∀ c ∈ ds, isdigit c = true) (hfit : (literalValue ds : Int) ≤ INT_MAX) :
    atoi ds = literalValue ds := by
  have h0 : INT_MIN ≤ (literalValue ds : Int) :=
    Int.le_trans (by decide) (Int.ofNat_nonneg _)
  have hmin : min LONG_MAX (literalValue ds : Int) = literalValue ds := by
    apply min_eq_right
    unfold INT_MAX at hfit
    unfold LONG_MAX
    omega
  rw [atoi_digits hne hds, hmin, wrapInt_of_fits h0 hfit]

theorem evalToken_digits {ds : List Char} (hne : ds ≠ []) (hds : ∀ c ∈ ds, isdigit c = true)
    (err : Int) (vs : List Int) :
    evalToken ds err vs = .ok (err, atoi ds :: vs) := by
  cases ds with
  | nil => exact absurd rfl hne
  | cons c cs =>
    have hc := hds c (List.mem_cons_self _ _)
    rw [evalToken, if_pos (Or.inl (by simpa using hc))]
    rfl

theorem evalToken_operator {op : Char} (hop : IsOperator op) (a b : Int) (vs : List Int) :
    evalToken [op] 0 (b :: a :: vs) =
      if (applyOp a b op 0).2 ≠ 0 then .error (0, (applyOp a b op 0).2, vs)
      else .ok ((applyOp a b op 0).2, (applyOp a b op 0).1 :: vs) := by
  have h := isOperator_facts hop
  rw [evalToken, if_neg, if_pos]
  · rfl
  · exact ⟨rfl, by simpa using strchr_of_isOperator hop⟩
  · simp only [List.getD_cons_zero, h.2.2.1, Bool.false_eq_true, false_or, not_and]
    intro _
    simp [isdigit]

theorem evalLoop_cons_ok {token : List Char} {err : Int} {vs : List Int} {next : Int × List Int}
    (h : evalToken token err vs = .ok next) (rest : List (List Char)) :
    evalLoop (token :: rest) err vs = evalLoop rest next.1 next.2 := by
  rw [evalLoop, h]

theorem applyOp_of_value {l r : Expr} {ws : List Char} {op : Char} (hop : IsOperator op)
    {a b v : Int} (hl : l.value = some a) (hr : r.value = some b)
    (hv : (Expr.bin l ws op r).value = some v) (h1 : INT_MIN ≤ v) (h2 : v ≤ INT_MAX) :
    applyOp a b op 0 = (v, 0) := by
  simp only [Expr.value, hl, hr, standardOp] at hv
  rcases hop with h | h | h | h <;> subst h
  · simp only [if_true, Option.some.injEq] at hv
    subst hv
    simp [applyOp, wrapInt_of_fits h1 h2]
  · simp only [show ('-' : Char) ≠ '+' by decide, if_false, if_true, Option.some.injEq] at hv
    subst hv
    simp [applyOp, wrapInt_of_fits h1 h2]
  · simp only [show ('*' : Char) ≠ '+' by decide, show ('*' : Char) ≠ '-' by decide,
      if_false, if_true, Option.some.injEq] at hv
    subst hv
    simp [applyOp, wrapInt_of_fits h1 h2]
  · simp only [show ('/' : Char) ≠ '+' by decide, show ('/' : Char) ≠ '-' by decide,
      show ('/' : Char) ≠ '*' by decide, if_false, if_true] at hv
    by_cases hb : b = 0
    · simp [hb] at hv
    · simp only [hb, if_false, Option.some.injEq] at hv
      subst hv
      simp [applyOp, hb, wrapInt_of_fits h1 h2]

/-- The evaluator on the post-order tokens of a well-formed expression whose values
all fit in `int`: the standard value is pushed, the error flag stays clear. -/
theorem evalLoop_expr (e : Expr) : e.wellFormed = true → e.fitsInt = true →
    ∀ v : Int, e.value = some v →
    ∀ (rest : List (List Char)) (vs : List Int),
      evalLoop (e.postTokens ++ rest) 0 vs = evalLoop rest 0 (v :: vs) := by
  induction e with
  | num ws ds =>
    intro hwf hfit v hv rest vs
    simp only [Expr.wellFormed, Bool.and_eq_true, List.all_eq_true, Bool.not_eq_true',
      List.isEmpty_eq_false] at hwf
    obtain ⟨⟨_, hne⟩, hds⟩ := hwf
    simp only [Expr.fitsInt, decide_eq_true_eq] at hfit
    simp only [Expr.value, Option.some.injEq] at hv
    subst hv
    have h0 : INT_MIN ≤ (literalValue ds : Int) :=
      Int.le_trans (by decide) (Int.ofNat_nonneg _)
    simp only [Expr.postTokens, List.singleton_append]
    rw [evalLoop_cons_ok (evalToken_digits hne hds 0 vs), atoi_digits_of_fits hne hds hfit]
  | paren ws1 e ws2 ih =>
    intro hwf hfit v hv rest vs
    simp only [Expr.wellFormed, Bool.and_eq_true] at hwf
    exact ih hwf.2 hfit v hv rest vs
  | bin l ws op r ihl ihr =>
    intro hwf hfit v hv rest vs
    simp only [Expr.wellFormed, Bool.and_eq_true, List.all_eq_true, decide_eq_true_eq] at hwf
    obtain ⟨⟨⟨⟨⟨_, hop⟩, hwl⟩, hwr⟩, _⟩, _⟩ := hwf
    simp only [Expr.fitsInt, Bool.and_eq_true, hv, decide_eq_true_eq] at hfit
    obtain ⟨⟨hfl, hfr⟩, h1, h2⟩ := hfit
    cases hl : l.value with
    | none => simp [Expr.value, hl] at hv
    | some a =>
      cases hr : r.value with
      | none => simp [Expr.value, hl, hr] at hv
      | some b =>
        have happ := applyOp_of_value hop hl hr hv h1 h2
        have htok := evalToken_operator hop a b vs
        rw [happ] at htok
        simp only [ne_eq, not_true_eq_false, if_false] at htok
        simp only [Expr.postTokens, List.append_assoc, List.singleton_append]
        rw [ihl hwl hfl a hl, ihr hwr hfr b hr, evalLoop_cons_ok htok]

theorem isdigit_clean {c : Char} (h : isdigit c = true) : c ≠ ' ' ∧ c ≠ '\x00' :=
  ⟨ne_of_isdigit h (by decide), ne_of_isdigit h (by decide)⟩

theorem cleanToken_digits {ds : List Char} (hne : ds ≠ []) (hds : ∀ c ∈ ds, isdigit c = true) :
    CleanToken ds := ⟨hne, fun c hc => isdigit_clean (hds c hc)⟩

theorem cleanToken_stackChar {c : Char} (h : IsStackChar c) : CleanToken [c] := by
  refine ⟨by simp, fun d hd => ?_⟩
  simp at hd
  subst hd
  rcases h with h | h
  · exact ⟨(isOperator_facts h).2.2.2.2.2.1, (isOperator_facts h).1⟩
  · subst h; decide

theorem postTokens_clean (e : Expr) : e.wellFormed = true → ∀ t ∈ e.postTokens, CleanToken t := by
  induction e with
  | num ws ds =>
    intro hwf t ht
    simp only [Expr.wellFormed, Bool.and_eq_true, List.all_eq_true, Bool.not_eq_true',
      List.isEmpty_eq_false] at hwf
    simp only [Expr.postTokens, List.mem_singleton] at ht
    subst ht
    exact cleanToken_digits hwf.1.2 hwf.2
  | paren ws1 e ws2 ih =>
    intro hwf t ht
    simp only [Expr.wellFormed, Bool.and_eq_true] at hwf
    exact ih hwf.2 t ht
  | bin l ws op r ihl ihr =>
    intro hwf t ht
    simp only [Expr.wellFormed, Bool.and_eq_true, List.all_eq_true, decide_eq_true_eq] at hwf
    obtain ⟨⟨⟨⟨⟨_, hop⟩, hwl⟩, hwr⟩, _⟩, _⟩ := hwf
    simp only [Expr.postTokens, List.mem_append, List.mem_singleton] at ht
    rcases ht with (ht | ht) | ht
    · exact ihl hwl t ht
    · exact ihr hwr t ht
    · subst ht; exact cleanToken_stackChar (Or.inl hop)

/-- Conversion followed by evaluation on a well-formed line whose literals and
intermediate values fit in `int`: the standard value, no error, empty stacks. -/
theorem pipeline_render (e : Expr) (hwf : e.wellFormed = true) (hfit : e.fitsInt = true)
    (v : Int) (hv : e.value = some v) (wsEnd : List Char)
    (hws : ∀ c ∈ wsEnd, isspace c = true) :
    evaluatePostfix (infixToPostfix (e.render ++ wsEnd) []).1 0 [] = (v, 0, []) := by
  rw [infixToPostfix_render e hwf wsEnd hws, evaluatePostfix,
    strtok_joinSp _ (postTokens_clean e hwf)]
  have := evalLoop_expr e hwf hfit v hv [] []
  rw [List.append_nil] at this
  rw [this]
  rfl

/-! ## The converter on arbitrary lines -/

theorem count_dropWhile_open {f : Char → Bool} (hf : ∀ c, f c = true → c ≠ '(') (s : List Char) :
    (s.dropWhile f).count '(' = s.count '(' := by
  induction s with
  | nil => rfl
  | cons c s ih =>
    rw [List.dropWhile_cons]
    by_cases h : f c = true
    · rw [if_pos h, ih, List.count_cons_of_ne (Ne.symm (hf c h))]
    · rw [if_neg h]

theorem dropWhile_flush_zero (s : List Char) :
    s.dropWhile (flushCond 0) = [] ∨ ∃ s2, s.dropWhile (flushCond 0) = '(' :: s2 := by
  induction s with
  | nil => exact Or.inl rfl
  | cons c s ih =>
    rw [List.dropWhile_cons]
    by_cases h : flushCond 0 c = true
    · rw [if_pos h]; exact ih
    · rw [if_neg h]
      right
      have hp := precedence_nonneg c
      simp only [flushCond, decide_eq_true_eq, not_and, ge_iff_le] at h
      have : c = '(' := by
        by_contra hne
        exact h hne hp
      exact ⟨s, by rw [this]⟩

theorem flushCond_ne_open (q : Int) (c : Char) (h : flushCond q c = true) : c ≠ '(' := by
  simp only [flushCond, decide_eq_true_eq] at h
  exact h.1

theorem validStack_dropWhile {s : List Char} (hs : ValidStack s) (f : Char → Bool) :
    ValidStack (s.dropWhile f) :=
  fun c hc => hs c ((List.dropWhile_sublist f).subset hc)

theorem validStack_cons {c : Char} (hc : IsStackChar c) {s : List Char} (hs : ValidStack s) :
    ValidStack (c :: s) := by
  intro d hd
  rcases List.mem_cons.mp hd with h | h
  · exact h ▸ hc
  · exact hs d h

theorem popped_tokens {s : List Char} (hs : ValidStack s) (f : Char → Bool) :
    ∀ t ∈ (s.takeWhile f).map (fun c => [c]), IsPostfixToken t := by
  intro t ht
  obtain ⟨c, hc, rfl⟩ := List.mem_map.mp ht
  exact Or.inr ⟨c, hs c ((List.takeWhile_sublist f).subset hc), rfl⟩

theorem openCount_dropWhile_digits (l : List Char) (d : Nat) :
    openCount (l.dropWhile isdigit) d = openCount l d := by
  induction l with
  | nil => rfl
  | cons c l ih =>
    rw [List.dropWhile_cons]
    by_cases h : isdigit c = true
    · rw [if_pos h, ih, openCount, if_neg (ne_of_isdigit h (by decide)),
        if_neg (ne_of_isdigit h (by decide)), if_neg (ne_of_isdigit h (by decide))]
    · rw [if_neg h]

/-- Invariant of the scan loop on any input: the output is a sequence of tokens each
followed by a space, the stack holds operators and opening parentheses only, and the
number of `(` on the stack is the number of parentheses still open. -/
theorem scan_invariant : ∀ (n : Nat) (input : List Char), input.length ≤ n →
    ∀ (toks : List (List Char)) (s : List Char), ValidStack s →
    ∃ new s', scan input (emitAll toks) s = (emitAll (toks ++ new), s') ∧ ValidStack s' ∧
      (∀ t ∈ new, IsPostfixToken t) ∧ s'.count '(' = openCount input (s.count '(') := by
  intro n
  induction n with
  | zero =>
    intro input hlen toks s hs
    have : input = [] := List.length_eq_zero.mp (Nat.le_zero.mp hlen)
    subst this
    exact ⟨[], s, by rw [scan_nil, List.append_nil], hs, by simp, rfl⟩
  | succ n ih =>
    intro input hlen toks s hs
    cases input with
    | nil => exact ⟨[], s, by rw [scan_nil, List.append_nil], hs, by simp, rfl⟩
    | cons token rest =>
      have hrest : rest.length ≤ n := by simpa using hlen
      rw [scan_cons]
      by_cases h0 : token = '\x00'
      · rw [if_pos h0]
        exact ⟨[], s, by rw [List.append_nil], hs, by simp, by simp [openCount, h0]⟩
      rw [if_neg h0]
      by_cases hsp : isspace token = true
      · rw [if_pos hsp]
        obtain ⟨new, s', h1, h2, h3, h4⟩ := ih rest hrest toks s hs
        refine ⟨new, s', h1, h2, h3, ?_⟩
        rw [h4, openCount, if_neg h0, if_neg (ne_of_isspace hsp (by decide)),
          if_neg (ne_of_isspace hsp (by decide))]
      rw [if_neg hsp]
      by_cases hd : isdigit token = true
      · rw [if_pos hd]
        obtain ⟨run, hrun⟩ : ∃ run, run = (token :: rest).takeWhile isdigit := ⟨_, rfl⟩
        have hne : run ≠ [] := by rw [hrun]; simp [List.takeWhile_cons, hd]
        have hdig : ∀ c ∈ run, isdigit c = true := by
          intro c hc
          rw [hrun] at hc
          exact List.mem_takeWhile_imp hc
        have hdl : ((token :: rest).dropWhile isdigit).length ≤ n := by
          simp only [List.dropWhile_cons, hd, if_true]
          exact Nat.le_trans (length_dropWhile_le_self _ _) hrest
        have hemit : emitAll toks ++ run ++ [' '] = emitAll (toks ++ [run]) := by
          simp [emitAll_append, emitAll]
        rw [← hrun, hemit]
        obtain ⟨new, s', h1, h2, h3, h4⟩ := ih _ hdl (toks ++ [run]) s hs
        refine ⟨run :: new, s', ?_, h2, ?_, ?_⟩
        · rw [h1]; simp
        · intro t ht
          rcases List.mem_cons.mp ht with h | h
          · exact Or.inl (h ▸ ⟨hne, hdig⟩)
          · exact h3 t h
        · rw [h4, openCount_dropWhile_digits]
      rw [if_neg hd]
      by_cases hop : token = '('
      · rw [if_pos hop]
        subst hop
        obtain ⟨new, s', h1, h2, h3, h4⟩ :=
          ih rest hrest toks ('(' :: s) (validStack_cons (Or.inr rfl) hs)
        refine ⟨new, s', h1, h2, h3, ?_⟩
        rw [h4, openCount, if_neg h0, if_pos rfl, List.count_cons_self]
      rw [if_neg hop]
      by_cases hcl : token = ')'
      · rw [if_pos hcl, closeLoop_valid hs]
        have hemit : emitAll toks ++ emitOps (s.takeWhile (flushCond 0)) =
            emitAll (toks ++ (s.takeWhile (flushCond 0)).map fun c => [c]) := by
          rw [emitAll_append, emitAll_singletons]
        have hcount := count_dropWhile_open (flushCond_ne_open 0) s
        have hvalid : ValidStack (popChar (s.dropWhile (flushCond 0))).2 := by
          rcases dropWhile_flush_zero s with h | ⟨s2, h⟩
          · rw [h]; intro c hc; simp [popChar] at hc
          · have := validStack_dropWhile hs (flushCond 0)
            rw [h] at this ⊢
            exact fun c hc => this c (List.mem_cons_of_mem _ hc)
        have hpop : (popChar (s.dropWhile (flushCond 0))).2.count '(' = s.count '(' - 1 := by
          rcases dropWhile_flush_zero s with h | ⟨s2, h⟩
          · rw [h] at hcount ⊢
            rw [← hcount]
            rfl
          · rw [h] at hcount ⊢
            rw [← hcount, List.count_cons_self]
            rfl
        simp only []
        rw [hemit]
        obtain ⟨new, s', h1, h2, h3, h4⟩ := ih rest hrest _ _ hvalid
        refine ⟨(s.takeWhile (flushCond 0)).map (fun c => [c]) ++ new, s', ?_, h2, ?_, ?_⟩
        · rw [h1, List.append_assoc]
        · intro t ht
          rcases List.mem_append.mp ht with h | h
          · exact popped_tokens hs _ t h
          · exact h3 t h
        · rw [h4, hpop, openCount, if_neg h0, if_neg hop, if_pos hcl]
      rw [if_neg hcl]
      by_cases hstr : strchr operators token = true
      · have hoper := isOperator_of_strchr hstr h0
        rw [if_pos hstr, operatorLoop_eq]
        have hemit : emitAll toks ++ emitOps (s.takeWhile (flushCond (precedence token))) =
            emitAll (toks ++ (s.takeWhile (flushCond (precedence token))).map fun c => [c]) := by
          rw [emitAll_append, emitAll_singletons]
        have hcount := count_dropWhile_open (flushCond_ne_open (precedence token)) s
        simp only [pushChar]
        rw [hemit]
        obtain ⟨new, s', h1, h2, h3, h4⟩ := ih rest hrest _ _
          (validStack_cons (Or.inl hoper) (validStack_dropWhile hs (flushCond (precedence token))))
        refine ⟨(s.takeWhile (flushCond (precedence token))).map (fun c => [c]) ++ new, s', ?_,
          h2, ?_, ?_⟩
        · rw [h1, List.append_assoc]
        · intro t ht
          rcases List.mem_append.mp ht with h | h
          · exact popped_tokens hs _ t h
          · exact h3 t h
        · rw [h4, List.count_cons_of_ne (Ne.symm hop), hcount, openCount, if_neg h0, if_neg hop,
            if_neg hcl]
      · rw [if_neg hstr]
        obtain ⟨new, s', h1, h2, h3, h4⟩ := ih rest hrest toks s hs
        refine ⟨new, s', h1, h2, h3, ?_⟩
        rw [h4, openCount, if_neg h0, if_neg hop, if_neg hcl]

/-- The converter on any line, from an empty operator stack: tokens separated by
single spaces and an empty stack; an opening parenthesis left open is written as a
token. -/
theorem infixToPostfix_tokens (line : List Char) :
    ∃ toks, infixToPostfix line [] = (joinSp toks, []) ∧ (∀ t ∈ toks, IsPostfixToken t) ∧
      (0 < openCount line 0 → ['('] ∈ toks) := by
  obtain ⟨new, s', h1, h2, h3, h4⟩ :=
    scan_invariant line.length line (Nat.le_refl _) [] [] (fun c hc => by simp at hc)
  have h1' : scan line [] [] = (emitAll new, s') := by simpa [emitAll] using h1
  refine ⟨new ++ s'.map (fun c => [c]), ?_, ?_, ?_⟩
  · rw [infixToPostfix_eq, h1', drainLoop_valid h2, ← emitAll_singletons, ← emitAll_append,
      trimTrailingSpace_emitAll]
  · intro t ht
    rcases List.mem_append.mp ht with h | h
    · exact h3 t h
    · obtain ⟨c, hc, rfl⟩ := List.mem_map.mp h
      exact Or.inr ⟨c, h2 c hc, rfl⟩
  · intro hpos
    have hc : 0 < s'.count '(' := by rw [h4]; exact hpos
    exact List.mem_append_right _ (List.mem_map.mpr ⟨'(', List.count_pos_iff.mp hc, rfl⟩)

theorem cleanToken_of_isPostfixToken {t : List Char} (h : IsPostfixToken t) : CleanToken t := by
  rcases h with ⟨hne, hd⟩ | ⟨c, hc, rfl⟩
  · exact cleanToken_digits hne hd
  · exact cleanToken_stackChar hc

/-! ## The error flag -/

theorem evalToken_zero_ok {token : List Char} {vs : List Int} {next : Int × List Int}
    (h : evalToken token 0 vs = .ok next) : next.1 = 0 := by
  simp only [evalToken] at h
  split_ifs at h with h1 h2 h3
  · cases h; rfl
  · cases h
    simpa using h3

theorem applyOp_err (a b : Int) (op : Char) :
    (applyOp a b op 0).2 = 0 ∨ (applyOp a b op 0).2 = 1 := by
  unfold applyOp
  split_ifs <;> simp

theorem evalToken_zero_error {token : List Char} {vs : List Int} {r : Int × Int × List Int}
    (h : evalToken token 0 vs = .error r) : r.1 = 0 ∧ r.2.1 = 1 := by
  simp only [evalToken] at h
  split_ifs at h with h1 h2 h3
  · cases h
    rcases applyOp_err (popInt (popInt vs).2).1 (popInt vs).1 (token.getD 0 '\x00') with h | h
    · exact absurd h h3
    · exact ⟨rfl, h⟩
  · cases h; exact ⟨rfl, rfl⟩

theorem evalToken_open (err : Int) (vs : List Int) :
    evalToken ['('] err vs = .error (0, 1, vs) := by
  unfold evalToken
  rw [if_neg (by decide), if_neg (by decide)]

theorem evalLoop_open (toks : List (List Char)) : ∀ (vs : List Int),
    ['('] ∈ toks → (evalLoop toks 0 vs).1 = 0 ∧ (evalLoop toks 0 vs).2.1 = 1 := by
  induction toks with
  | nil => intro vs h; simp at h
  | cons token rest ih =>
    intro vs h
    rw [evalLoop]
    cases hstep : evalToken token 0 vs with
    | error r => exact evalToken_zero_error hstep
    | ok next =>
      rcases List.mem_cons.mp h with h | h
      · rw [← h, evalToken_open] at hstep
        cases hstep
      · have h0 := evalToken_zero_ok hstep
        simp only []
        rw [h0]
        exact ih next.2 h

theorem evaluatePostfix_postTokens (e : Expr) (hwf : e.wellFormed = true)
    (hfit : e.fitsInt = true) (v : Int) (hv : e.value = some v) :
    evaluatePostfix (joinSp e.postTokens) 0 [] = (v, 0, []) := by
  rw [evaluatePostfix, strtok_joinSp _ (postTokens_clean e hwf)]
  have := evalLoop_expr e hwf hfit v hv [] []
  rw [List.append_nil] at this
  rw [this]
  rfl

theorem wellFormed_num {ws d : List Char} (hws : ∀ c ∈ ws, isspace c = true) (hd : IsLiteral d) :
    (Expr.num ws d).wellFormed = true := by
  simp only [Expr.wellFormed, Bool.and_eq_true, List.all_eq_true, Bool.not_eq_true',
    List.isEmpty_eq_false]
  exact ⟨⟨hws, hd.1⟩, hd.2⟩

theorem wellFormed_bin {l r : Expr} {ws : List Char} {op : Char}
    (hws : ∀ c ∈ ws, isspace c = true) (hop : IsOperator op) (hl : l.wellFormed = true)
    (hr : r.wellFormed = true) (h1 : (Expr.bin l ws op r).level ≤ l.level)
    (h2 : (Expr.bin l ws op r).level < r.level) : (Expr.bin l ws op r).wellFormed = true := by
  simp only [Expr.wellFormed, Bool.and_eq_true, List.all_eq_true, decide_eq_true_eq]
  exact ⟨⟨⟨⟨⟨hws, hop⟩, hl⟩, hr⟩, h1⟩, h2⟩

theorem wellFormed_paren {e : Expr} {ws1 ws2 : List Char}
    (h1 : ∀ c ∈ ws1, isspace c = true) (h2 : ∀ c ∈ ws2, isspace c = true)
    (he : e.wellFormed = true) : (Expr.paren ws1 e ws2).wellFormed = true := by
  simp only [Expr.wellFormed, Bool.and_eq_true, List.all_eq_true]
  exact ⟨⟨h1, h2⟩, he⟩

theorem literalValue_nonneg (d : List Char) : INT_MIN ≤ (literalValue d : Int) :=
  Int.le_trans (by decide) (Int.ofNat_nonneg _)

theorem evalLoop_of_prefix (pre : List (List Char)) : ∀ (err : Int) (vs : List Int)
    (next : Int × List Int), evalPrefix pre err vs = .ok next →
    ∀ rest, evalLoop (pre ++ rest) err vs = evalLoop rest next.1 next.2 := by
  induction pre with
  | nil =>
    intro err vs next h rest
    simp only [evalPrefix, Except.ok.injEq] at h
    subst h
    rfl
  | cons token pre ih =>
    intro err vs next h rest
    rw [evalPrefix] at h
    rw [List.cons_append, evalLoop]
    cases hstep : evalToken token err vs with
    | error r => rw [hstep] at h; cases h
    | ok mid =>
      rw [hstep] at h
      exact ih mid.1 mid.2 next h rest

theorem clearCharStack_eq (s : List Char) : clearCharStack s = [] := by
  induction s with
  | nil => rfl
  | cons c s ih => exact ih

theorem clearIntStack_eq (s : List Int) : clearIntStack s = [] := by
  induction s with
  | nil => rfl
  | cons c s ih => exact ih

theorem processLine_eq (line opStack : List Char) (valStack : List Int) :
    processLine line opStack valStack = processLine line [] [] := by
  simp only [processLine, clearCharStack_eq, clearIntStack_eq]

theorem lineOutput_eq (raw opStack : List Char) (valStack : List Int) :
    lineOutput raw opStack valStack =
      outputLine (calculate ((cstr raw).takeWhile (fun c => c ≠ '\n'))).1
        (calculate ((cstr raw).takeWhile (fun c => c ≠ '\n'))).2 := by
  unfold lineOutput
  rw [processLine_eq]
  rfl

theorem noDoubleSpace_append {t : List Char} (ht : ∀ c ∈ t, c ≠ ' ') {rest : List Char}
    (hrest : noDoubleSpace rest = true) : noDoubleSpace (t ++ rest) = true := by
  induction t with
  | nil => exact hrest
  | cons c t ih =>
    have hc := ht c (List.mem_cons_self _ _)
    have ih' := ih (fun d hd => ht d (List.mem_cons_of_mem _ hd))
    cases hrt : t ++ rest with
    | nil => simp [hrt, noDoubleSpace]
    | cons b r =>
      rw [hrt] at ih'
      simp [hrt, noDoubleSpace, hc, ih']

theorem joinSp_format (ts : List (List Char)) (h : ∀ t ∈ ts, CleanToken t) :
    (joinSp ts).head? ≠ some ' ' ∧ (joinSp ts).getLast? ≠ some ' ' ∧
      noDoubleSpace (joinSp ts) = true := by
  induction ts with
  | nil => simp [joinSp, noDoubleSpace]
  | cons t ts ih =>
    have ht := h t (List.mem_cons_self _ _)
    have hrest : ∀ v ∈ ts, CleanToken v := fun v hv => h v (List.mem_cons_of_mem _ hv)
    have hsp : ∀ c ∈ t, c ≠ ' ' := fun c hc => (ht.2 c hc).1
    obtain ⟨c, t', rfl⟩ := List.exists_cons_of_ne_nil ht.1
    have hc := hsp c (List.mem_cons_self _ _)
    cases ts with
    | nil =>
      refine ⟨by simpa [joinSp] using hc, ?_, ?_⟩
      · intro hl
        rw [joinSp] at hl
        exact hsp _ (List.mem_of_getLast?_eq_some hl) rfl
      · have := @noDoubleSpace_append _ hsp [] rfl
        simpa [joinSp] using this
    | cons u ts =>
      obtain ⟨ih1, ih2, ih3⟩ := ih hrest
      refine ⟨by simpa [joinSp] using hc, ?_, ?_⟩
      · have hne : joinSp (u :: ts) ≠ [] := by
          have hu := (hrest u (List.mem_cons_self _ _)).1
          cases ts <;> simp [joinSp, hu]
        have hassoc : (c :: t') ++ ' ' :: joinSp (u :: ts)
            = ((c :: t') ++ [' ']) ++ joinSp (u :: ts) := by simp
        rw [joinSp, hassoc, List.getLast?_append_of_ne_nil _ hne]
        exact ih2
      · rw [joinSp]
        apply noDoubleSpace_append hsp
        cases hj : joinSp (u :: ts) with
        | nil => rfl
        | cons x xs =>
          rw [hj] at ih1 ih3
          have hx : x ≠ ' ' := by simpa using ih1
          simp [noDoubleSpace, hx, ih3]

/-! ## The run with the fault -/

theorem applyOpRun_some {a b : Int} {op : Char} {err : Int} {r : Int × Int}
    (h : applyOpRun a b op err = some r) : r = applyOp a b op err := by
  unfold applyOpRun at h
  unfold applyOp
  split_ifs at h ⊢
  all_goals exact (Option.some.inj h).symm

theorem applyOpRun_none {a b : Int} {op : Char} {err : Int} :
    applyOpRun a b op err = none ↔ (op = '/' ∧ a = INT_MIN ∧ b = -1) := by
  unfold applyOpRun
  constructor
  · intro h
    split_ifs at h with h1 h2 h3 h4 h5 h6
    exact ⟨h4, h6⟩
  · rintro ⟨h1, h2, h3⟩
    subst h1 h2 h3
    simp

theorem evalTokenRun_some {t : List Char} {err : Int} {vs : List Int}
    {x : Except (Int × Int × List Int) (Int × List Int)}
    (h : evalTokenRun t err vs = some x) : x = evalToken t err vs := by
  simp only [evalTokenRun] at h
  simp only [evalToken]
  by_cases h1 : isdigit (t.getD 0 '\x00') = true ∨
      (t.getD 0 '\x00' = '-' ∧ isdigit (t.getD 1 '\x00') = true)
  · rw [if_pos h1] at h ⊢
    exact (Option.some.inj h).symm
  · rw [if_neg h1] at h ⊢
    by_cases h2 : t.length = 1 ∧ strchr operators (t.getD 0 '\x00') = true
    · rw [if_pos h2] at h ⊢
      cases hr : applyOpRun (popInt (popInt vs).2).1 (popInt vs).1 (t.getD 0 '\x00') err with
      | none => rw [hr] at h; cases h
      | some result =>
        rw [hr] at h
        have hres := applyOpRun_some hr
        subst hres
        simp only [] at h
        split_ifs at h ⊢
        all_goals exact (Option.some.inj h).symm
    · rw [if_neg h2] at h ⊢
      exact (Option.some.inj h).symm

theorem evalLoopRun_some (toks : List (List Char)) : ∀ (err : Int) (vs : List Int)
    (r : Int × Int × List Int), evalLoopRun toks err vs = some r →
    r = evalLoop toks err vs := by
  induction toks with
  | nil =>
    intro err vs r h
    exact (Option.some.inj h).symm
  | cons t toks ih =>
    intro err vs r h
    rw [evalLoopRun] at h
    rw [evalLoop]
    cases hstep : evalTokenRun t err vs with
    | none => rw [hstep] at h; cases h
    | some x =>
      rw [hstep] at h
      rw [← evalTokenRun_some hstep]
      cases x with
      | error r0 => exact (Option.some.inj h).symm
      | ok next => exact ih _ _ r h

theorem calculateRun_some {line : List Char} {r : Int × Int}
    (h : calculateRun line = some r) : r = calculate line := by
  unfold calculateRun at h
  unfold calculate
  cases hev : evaluatePostfixRun (infixToPostfix line []).1 0 [] with
  | none => rw [hev] at h; cases h
  | some ev =>
    rw [hev] at h
    have := evalLoopRun_some _ _ _ _ hev
    rw [evaluatePostfix, ← this]
    exact (Option.some.inj h).symm

theorem processLineRun_eq (line opStack : List Char) (valStack : List Int) :
    processLineRun line opStack valStack = processLineRun line [] [] := by
  simp only [processLineRun, clearCharStack_eq, clearIntStack_eq]

theorem lineOutputRun_eq (line opStack : List Char) (valStack : List Int) :
    lineOutputRun line opStack valStack = lineOutputRun line [] [] := by
  unfold lineOutputRun
  rw [processLineRun_eq]

theorem processLineRun_some {line opStack : List Char} {valStack : List Int}
    {done : LineResult} (h : processLineRun line opStack valStack = some done) :
    done = processLine line opStack valStack := by
  simp only [processLineRun] at h
  simp only [processLine]
  cases hev : evaluatePostfixRun
      (infixToPostfix ((cstr line).takeWhile (fun c => c ≠ '\n')) (clearCharStack opStack)).1 0
      (clearIntStack valStack) with
  | none => rw [hev] at h; cases h
  | some ev =>
    rw [hev] at h
    have := evalLoopRun_some _ _ _ _ hev
    rw [evaluatePostfix, ← this]
    exact (Option.some.inj h).symm

theorem lineOutputRun_some {line opStack : List Char} {valStack : List Int} {text : String}
    (h : lineOutputRun line opStack valStack = some text) :
    text = lineOutput line opStack valStack := by
  unfold lineOutputRun at h
  unfold lineOutput
  cases hp : processLineRun line opStack valStack with
  | none => rw [hp] at h; cases h
  | some done =>
    rw [hp] at h
    rw [← processLineRun_some hp]
    exact (Option.some.inj h).symm

theorem lineOutputRun_eq_calculateRun (raw opStack : List Char) (valStack : List Int) :
    lineOutputRun raw opStack valStack =
      match calculateRun ((cstr raw).takeWhile (fun c => c ≠ '\n')) with
      | none => none
      | some r => some (outputLine r.1 r.2) := by
  rw [lineOutputRun_eq]
  simp only [lineOutputRun, processLineRun, calculateRun, clearCharStack, clearIntStack]
  cases evaluatePostfixRun (infixToPostfix ((cstr raw).takeWhile (fun c => c ≠ '\n')) []).1 0 []
    <;> rfl

theorem mainRun_eq (lines : List (List Char)) : ∀ (opStack : List Char) (valStack : List Int),
    mainRun lines opStack valStack
      = collectWritten (lines.map fun line => lineOutputRun line [] []) := by
  induction lines with
  | nil => intro _ _; rfl
  | cons line more ih =>
    intro opStack valStack
    rw [mainRun, List.map_cons, processLineRun_eq]
    unfold lineOutputRun
    cases processLineRun line [] [] with
    | none => rfl
    | some done =>
      simp only [collectWritten]
      rw [ih]
      rfl

theorem collectWritten_map (lines : List (List Char)) {f : List Char → Option String}
    {g : List Char → String} (hlive : ∀ line ∈ lines, f line ≠ none)
    (hval : ∀ line text, f line = some text → text = g line) :
    collectWritten (lines.map f) = some (lines.map g) := by
  induction lines with
  | nil => rfl
  | cons line more ih =>
    have hmore := ih (fun l hl => hlive l (List.mem_cons_of_mem _ hl))
    cases hf : f line with
    | none => exact absurd hf (hlive line (List.mem_cons_self _ _))
    | some text =>
      rw [List.map_cons, List.map_cons, hf, collectWritten, hmore, hval line text hf]

/-! ## The claims -/

/-- C1, as stated, fails: the line `2147483647 + 1` is well formed and its standard
value is 2147483648, which conversion followed by evaluation does not return. -/
theorem C1_counterexample :
    (Expr.bin (.num [] "2147483647".toList) [' '] '+' (.num [' '] "1".toList)).wellFormed = true ∧
    (Expr.bin (.num [] "2147483647".toList) [' '] '+' (.num [' '] "1".toList)).render
      = "2147483647 + 1".toList ∧
    (Expr.bin (.num [] "2147483647".toList) [' '] '+' (.num [' '] "1".toList)).value
      = some 2147483648 ∧
    (calculate "2147483647 + 1".toList).1 ≠ 2147483648 := by
  decide

/-- C1 (amended): for every well-formed line over non-negative integer literals,
`+ - * /` and balanced parentheses, with optional white space around the tokens, whose
standard value is defined and whose literals and intermediate values all lie in the
range of `int`, conversion followed by evaluation from empty stacks returns exactly
that value and sets no error. -/
theorem C1_standard_value (e : Expr) (wsEnd : List Char) (v : Int)
    (hwf : e.wellFormed = true) (hws : ∀ c ∈ wsEnd, isspace c = true)
    (hv : e.value = some v) (hfit : e.fitsInt = true) :
    calculate (e.render ++ wsEnd) = (v, 0) := by
  unfold calculate
  simp only []
  rw [pipeline_render e hwf hfit v hv wsEnd hws]

/-- C1 at the line `7 - (1 + 2) * 3 / 4 `: the value is 5. -/
theorem C1_standard_value_witness :
    calculate "7 - (1 + 2) * 3 / 4 ".toList = (5, 0) :=
  C1_standard_value
    (.bin (.num [] ['7']) [' '] '-'
      (.bin (.bin (.paren [' '] (.bin (.num [] ['1']) [' '] '+' (.num [' '] ['2'])) [])
        [' '] '*' (.num [' '] ['3'])) [' '] '/' (.num [' '] ['4'])))
    [' '] 5 (by decide) (by decide) (by decide) (by decide)

/-- C2, as stated, fails: for the literals 2147483647, 1 and 1 the postfix text is
`2147483647 1 1 * +`, and evaluating it does not return 2147483647 + 1 * 1. -/
theorem C2_counterexample :
    (infixToPostfix "2147483647 + 1 * 1".toList []).1 = "2147483647 1 1 * +".toList ∧
    (evaluatePostfix "2147483647 1 1 * +".toList 0 []).1 ≠ 2147483647 + 1 * 1 := by
  decide

/-- C2 (amended): multiplication binds tighter than addition.  For all non-negative
integer literals a, b, c the converter turns `a + b * c` into exactly `a b c * +`;
when a, b, c and a + b * c do not exceed `INT_MAX`, the evaluator returns a + (b * c)
on that text without error.  In particular `3 + 4 * 2` gives `3 4 2 * +` and 11. -/
theorem C2_mul_before_add (a b c : List Char) (ha : IsLiteral a) (hb : IsLiteral b)
    (hc : IsLiteral c) :
    (infixToPostfix (a ++ [' ', '+', ' '] ++ b ++ [' ', '*', ' '] ++ c) []).1
      = a ++ [' '] ++ b ++ [' '] ++ c ++ [' ', '*', ' ', '+'] ∧
    ((literalValue a : Int) ≤ INT_MAX → (literalValue b : Int) ≤ INT_MAX →
      (literalValue c : Int) ≤ INT_MAX →
      (literalValue a : Int) + literalValue b * literalValue c ≤ INT_MAX →
      evaluatePostfix (a ++ [' '] ++ b ++ [' '] ++ c ++ [' ', '*', ' ', '+']) 0 []
        = ((literalValue a : Int) + literalValue b * literalValue c, 0, [])) ∧
    (infixToPostfix "3 + 4 * 2".toList []).1 = "3 4 2 * +".toList ∧
    evaluatePostfix "3 4 2 * +".toList 0 [] = (11, 0, []) := by
  have hsp : ∀ x ∈ [' '], isspace x = true := by decide
  have hwf : (Expr.bin (.num [] a) [' '] '+'
      (.bin (.num [' '] b) [' '] '*' (.num [' '] c))).wellFormed = true :=
    wellFormed_bin hsp (by decide) (wellFormed_num (by simp) ha)
      (wellFormed_bin hsp (by decide) (wellFormed_num hsp hb) (wellFormed_num hsp hc)
        (by simp [Expr.level]) (by simp [Expr.level]))
      (by simp [Expr.level]) (by simp [Expr.level])
  refine ⟨?_, ?_, by decide, by decide⟩
  · have := infixToPostfix_render _ hwf [] (by simp)
    simpa [Expr.render, Expr.postTokens, joinSp] using congrArg Prod.fst this
  · intro h1 h2 h3 h4
    have hbc : (literalValue b : Int) * literalValue c ≤ INT_MAX :=
      Int.le_trans (Int.le_add_of_nonneg_left (Int.ofNat_nonneg _)) h4
    have hn : INT_MIN ≤ (literalValue b : Int) * literalValue c :=
      Int.le_trans (by decide) (Int.mul_nonneg (Int.ofNat_nonneg _) (Int.ofNat_nonneg _))
    have hn2 : INT_MIN ≤ (literalValue a : Int) + literalValue b * literalValue c :=
      Int.le_trans (by decide) (Int.add_nonneg (Int.ofNat_nonneg _)
        (Int.mul_nonneg (Int.ofNat_nonneg _) (Int.ofNat_nonneg _)))
    have := evaluatePostfix_postTokens _ hwf
      (by simp [Expr.fitsInt, Expr.value, standardOp, h1, h2, h3, h4, hbc, hn, hn2])
      ((literalValue a : Int) + literalValue b * literalValue c)
      (by simp [Expr.value, standardOp])
    simpa [Expr.postTokens, joinSp] using this

/-- C2 at the literals 12, 5 and 6: `12 + 5 * 6` gives `12 5 6 * +`, evaluated to 42. -/
theorem C2_mul_before_add_witness :
    (infixToPostfix "12 + 5 * 6".toList []).1 = "12 5 6 * +".toList ∧
    evaluatePostfix "12 5 6 * +".toList 0 [] = (42, 0, []) :=
  ⟨(C2_mul_before_add "12".toList "5".toList "6".toList (by decide) (by decide) (by decide)).1,
    (C2_mul_before_add "12".toList "5".toList "6".toList (by decide) (by decide) (by decide)).2.1
      (by decide) (by decide) (by decide) (by decide)⟩

/-- C3, as stated, fails: for the literals 2147483647, 1 and 1 the postfix text is
`2147483647 1 + 1 *`, and evaluating it does not return (2147483647 + 1) * 1. -/
theorem C3_counterexample :
    (infixToPostfix "(2147483647 + 1) * 1".toList []).1 = "2147483647 1 + 1 *".toList ∧
    (evaluatePostfix "2147483647 1 + 1 *".toList 0 []).1 ≠ (2147483647 + 1) * 1 := by
  decide

/-- C3 (amended): parentheses override precedence.  For all non-negative integer
literals a, b, c the converter turns `(a + b) * c` into exactly `a b + c *`, in which
neither parenthesis occurs; when a, b, c, a + b and (a + b) * c do not exceed
`INT_MAX`, the evaluator returns (a + b) * c on that text without error.  In
particular `(1 + 2) * 3` gives `1 2 + 3 *` and 9. -/
theorem C3_parentheses_override (a b c : List Char) (ha : IsLiteral a) (hb : IsLiteral b)
    (hc : IsLiteral c) :
    (infixToPostfix (['('] ++ a ++ [' ', '+', ' '] ++ b ++ [')', ' ', '*', ' '] ++ c) []).1
      = a ++ [' '] ++ b ++ [' ', '+', ' '] ++ c ++ [' ', '*'] ∧
    '(' ∉ a ++ [' '] ++ b ++ [' ', '+', ' '] ++ c ++ [' ', '*'] ∧
    ')' ∉ a ++ [' '] ++ b ++ [' ', '+', ' '] ++ c ++ [' ', '*'] ∧
    ((literalValue a : Int) ≤ INT_MAX → (literalValue b : Int) ≤ INT_MAX →
      (literalValue c : Int) ≤ INT_MAX →
      (literalValue a : Int) + literalValue b ≤ INT_MAX →
      ((literalValue a : Int) + literalValue b) * literalValue c ≤ INT_MAX →
      evaluatePostfix (a ++ [' '] ++ b ++ [' ', '+', ' '] ++ c ++ [' ', '*']) 0 []
        = (((literalValue a : Int) + literalValue b) * literalValue c, 0, [])) ∧
    (infixToPostfix "(1 + 2) * 3".toList []).1 = "1 2 + 3 *".toList ∧
    evaluatePostfix "1 2 + 3 *".toList 0 [] = (9, 0, []) := by
  have hsp : ∀ x ∈ [' '], isspace x = true := by decide
  have hwf : (Expr.bin (.paren [] (.bin (.num [] a) [' '] '+' (.num [' '] b)) []) [' '] '*'
      (.num [' '] c)).wellFormed = true :=
    wellFormed_bin hsp (by decide)
      (wellFormed_paren (by simp) (by simp)
        (wellFormed_bin hsp (by decide) (wellFormed_num (by simp) ha) (wellFormed_num hsp hb)
          (by simp [Expr.level]) (by simp [Expr.level])))
      (wellFormed_num hsp hc) (by simp [Expr.level]) (by simp [Expr.level])
  have hno : ∀ (d : List Char), IsLiteral d → '(' ∉ d ∧ ')' ∉ d := fun d hd =>
    ⟨fun h => absurd (hd.2 _ h) (by decide), fun h => absurd (hd.2 _ h) (by decide)⟩
  refine ⟨?_, ?_, ?_, ?_, by decide, by decide⟩
  · have := infixToPostfix_render _ hwf [] (by simp)
    simpa [Expr.render, Expr.postTokens, joinSp] using congrArg Prod.fst this
  · simp [(hno a ha).1, (hno b hb).1, (hno c hc).1]
  · simp [(hno a ha).2, (hno b hb).2, (hno c hc).2]
  · intro h1 h2 h3 h4 h5
    have hn : INT_MIN ≤ (literalValue a : Int) + literalValue b :=
      Int.le_trans (by decide) (Int.add_nonneg (Int.ofNat_nonneg _) (Int.ofNat_nonneg _))
    have hn2 : INT_MIN ≤ ((literalValue a : Int) + literalValue b) * literalValue c :=
      Int.le_trans (by decide) (Int.mul_nonneg
        (Int.add_nonneg (Int.ofNat_nonneg _) (Int.ofNat_nonneg _)) (Int.ofNat_nonneg _))
    have := evaluatePostfix_postTokens _ hwf
      (by simp [Expr.fitsInt, Expr.value, standardOp, h1, h2, h3, h4, h5, hn, hn2])
      (((literalValue a : Int) + literalValue b) * literalValue c)
      (by simp [Expr.value, standardOp])
    simpa [Expr.postTokens, joinSp] using this

/-- C3 at the literals 10, 4 and 3: `(10 + 4) * 3` gives `10 4 + 3 *`, evaluated to 42. -/
theorem C3_parentheses_override_witness :
    (infixToPostfix "(10 + 4) * 3".toList []).1 = "10 4 + 3 *".toList ∧
    evaluatePostfix "10 4 + 3 *".toList 0 [] = (42, 0, []) :=
  ⟨(C3_parentheses_override "10".toList "4".toList "3".toList
      (by decide) (by decide) (by decide)).1,
    (C3_parentheses_override "10".toList "4".toList "3".toList
      (by decide) (by decide) (by decide)).2.2.2.1
      (by decide) (by decide) (by decide) (by decide) (by decide)⟩

/-- C4, as stated, fails: for the literals 2147483647, 1, 1 and the operators `+`, `+`
the postfix text is `2147483647 1 + 1 +`, and evaluating it does not return
(2147483647 + 1) + 1. -/
theorem C4_counterexample :
    (infixToPostfix "2147483647 + 1 + 1".toList []).1 = "2147483647 1 + 1 +".toList ∧
    (evaluatePostfix "2147483647 1 + 1 +".toList 0 []).1 ≠ (2147483647 + 1) + 1 := by
  decide

/-- C4 (amended): operators of equal precedence are left-associative.  For all
non-negative integer literals a, b, c and operators op1, op2 that are both in `+ -` or
both in `* /`, the converter turns `a op1 b op2 c` into exactly `a b op1 c op2`; when
a, b, c do not exceed `INT_MAX` and a op1 b and (a op1 b) op2 c are defined and lie in
the range of `int`, the evaluator returns (a op1 b) op2 c on that text without error.
In particular `8 - 3 - 2` gives `8 3 - 2 -` and 3. -/
theorem C4_left_associative (a b c : List Char) (op1 op2 : Char) (ha : IsLiteral a)
    (hb : IsLiteral b) (hc : IsLiteral c)
    (hops : (op1 ∈ ['+', '-'] ∧ op2 ∈ ['+', '-']) ∨ (op1 ∈ ['*', '/'] ∧ op2 ∈ ['*', '/'])) :
    (infixToPostfix (a ++ [' ', op1, ' '] ++ b ++ [' ', op2, ' '] ++ c) []).1
      = a ++ [' '] ++ b ++ [' ', op1, ' '] ++ c ++ [' ', op2] ∧
    (∀ x v : Int, (literalValue a : Int) ≤ INT_MAX → (literalValue b : Int) ≤ INT_MAX →
      (literalValue c : Int) ≤ INT_MAX →
      standardOp op1 (literalValue a) (literalValue b) = some x →
      INT_MIN ≤ x → x ≤ INT_MAX →
      standardOp op2 x (literalValue c) = some v →
      INT_MIN ≤ v → v ≤ INT_MAX →
      evaluatePostfix (a ++ [' '] ++ b ++ [' ', op1, ' '] ++ c ++ [' ', op2]) 0 []
        = (v, 0, [])) ∧
    (infixToPostfix "8 - 3 - 2".toList []).1 = "8 3 - 2 -".toList ∧
    evaluatePostfix "8 3 - 2 -".toList 0 [] = (3, 0, []) := by
  have hsp : ∀ x ∈ [' '], isspace x = true := by decide
  have hop1 : IsOperator op1 := by
    simp only [List.mem_cons, List.mem_singleton, List.not_mem_nil, or_false] at hops
    unfold IsOperator
    tauto
  have hop2 : IsOperator op2 := by
    simp only [List.mem_cons, List.mem_singleton, List.not_mem_nil, or_false] at hops
    unfold IsOperator
    tauto
  have hlev : (if op2 = '+' ∨ op2 = '-' then (1 : Int) else 2)
      ≤ (if op1 = '+' ∨ op1 = '-' then (1 : Int) else 2) := by
    simp only [List.mem_cons, List.mem_singleton, List.not_mem_nil, or_false] at hops
    rcases hops with ⟨h1 | h1, h2 | h2⟩ | ⟨h1 | h1, h2 | h2⟩ <;> subst h1 <;> subst h2 <;> decide
  have hlev3 : ∀ op : Char, (if op = '+' ∨ op = '-' then (1 : Int) else 2) < 3 := by
    intro op
    split_ifs <;> decide
  have hwf : (Expr.bin (.bin (.num [] a) [' '] op1 (.num [' '] b)) [' '] op2
      (.num [' '] c)).wellFormed = true :=
    wellFormed_bin hsp hop2
      (wellFormed_bin hsp hop1 (wellFormed_num (by simp) ha) (wellFormed_num hsp hb)
        (Int.le_of_lt (hlev3 op1)) (hlev3 op1))
      (wellFormed_num hsp hc) hlev (hlev3 op2)
  refine ⟨?_, ?_, by decide, by decide⟩
  · have := infixToPostfix_render _ hwf [] (by simp)
    simpa [Expr.render, Expr.postTokens, joinSp] using congrArg Prod.fst this
  · intro x v h1 h2 h3 hx hx1 hx2 hv hv1 hv2
    have := evaluatePostfix_postTokens _ hwf
      (by simp [Expr.fitsInt, Expr.value, hx, hv, h1, h2, h3, hx1, hx2, hv1, hv2]) v
      (by simp [Expr.value, hx, hv])
    simpa [Expr.postTokens, joinSp] using this

/-- C4 at the literals 20, 6, 3 and the operators `/`, `*`: `20 / 6 * 3` gives
`20 6 / 3 *`, evaluated to (20 / 6) * 3 = 9. -/
theorem C4_left_associative_witness :
    (infixToPostfix "20 / 6 * 3".toList []).1 = "20 6 / 3 *".toList ∧
    evaluatePostfix "20 6 / 3 *".toList 0 [] = (9, 0, []) :=
  ⟨(C4_left_associative "20".toList "6".toList "3".toList '/' '*'
      (by decide) (by decide) (by decide) (by decide)).1,
    (C4_left_associative "20".toList "6".toList "3".toList '/' '*'
      (by decide) (by decide) (by decide) (by decide)).2.1 3 9
      (by decide) (by decide) (by decide) (by decide) (by decide) (by decide)
      (by decide) (by decide) (by decide)⟩

/-- C5: division by zero is an error that aborts evaluation at once.  For every
postfix text whose tokens are `pre`, then `/`, then `rest`: if the scan of `pre` sets
no error and leaves 0 on top of the value stack, `evaluatePostfix` returns 0 with the
error flag set, whatever the tokens of `rest` are.  In particular the line `10 / 0`
gets the error text. -/
theorem C5_division_by_zero (pfx : List Char) (pre rest : List (List Char))
    (vs0 vs : List Int) (htok : strtok pfx = pre ++ ['/'] :: rest)
    (hpre : evalPrefix pre 0 vs0 = .ok (0, 0 :: vs)) :
    evaluatePostfix pfx 0 vs0 = (0, 1, (popInt vs).2) ∧
    (processLine "10 / 0".toList [] []).error = 1 ∧
    lineOutput "10 / 0".toList [] [] = errorText := by
  refine ⟨?_, by decide, by decide⟩
  rw [evaluatePostfix, htok, evalLoop_of_prefix pre 0 vs0 _ hpre]
  rfl

/-- C5 at the text `10 0 / 7 x`: the scan stops at `/`; neither `7` nor the
unrecognised token `x` is looked at. -/
theorem C5_division_by_zero_witness :
    evaluatePostfix "10 0 / 7 x".toList 0 [] = (0, 1, []) :=
  (C5_division_by_zero "10 0 / 7 x".toList ["10".toList, "0".toList]
    ["7".toList, "x".toList] [] [10] (by decide) rfl).1

/-- C6, as stated, fails: the line `5 + ` becomes the postfix text `5 +`, whose `+`
is applied with a single value on the value stack, and the line's output is `5`,
not the error text. -/
theorem C6_counterexample :
    (infixToPostfix "5 + ".toList []).1 = "5 +".toList ∧
    evalPrefix ["5".toList] 0 [] = .ok (0, [5]) ∧
    calculate "5 + ".toList = (5, 0) ∧
    lineOutput "5 + ".toList [] [] = "5\n" ∧
    lineOutput "5 + ".toList [] [] ≠ errorText :=
  ⟨by decide, rfl, by decide, by decide, by decide⟩

/-- C6 (amended): stack underflow is not reported.  `popInt` on an empty value stack
returns 0 and sets no error, so an operator met with fewer than two values on the
value stack takes 0 for each missing operand and the scan goes on (a division by 0
apart); in particular the line `5 + ` yields the output `5`. -/
theorem C6_underflow_reads_zero (op : Char) (b : Int) (rest : List (List Char))
    (hop : IsOperator op) (hdiv : op = '/' → b ≠ 0) :
    popInt [] = (0, []) ∧
    evalLoop ([op] :: rest) 0 [b] = evalLoop rest 0 [(applyOp 0 b op 0).1] ∧
    (op ≠ '/' → evalLoop ([op] :: rest) 0 [] = evalLoop rest 0 [0]) ∧
    lineOutput "5 + ".toList [] [] = "5\n" := by
  refine ⟨rfl, ?_, ?_, by decide⟩
  · rcases hop with h | h | h | h <;> subst h
    · rfl
    · rfl
    · rfl
    · have hb := hdiv rfl
      simp [evalLoop, evalToken, isdigit, strchr, operators, popInt, pushInt, applyOp, hb]
  · intro hne
    rcases hop with h | h | h | h <;> subst h
    · rfl
    · rfl
    · rfl
    · exact absurd rfl hne

/-- C6 at the operator `-` with the single value 5 on the stack: the result is 0 - 5. -/
theorem C6_underflow_reads_zero_witness :
    evalLoop [['-']] 0 [5] = (-5, 0, []) :=
  (C6_underflow_reads_zero '-' 5 [] (by decide) (by decide)).2.1

/-- C7, as stated, fails: the line `1+2)` has a closing parenthesis without partner,
its postfix text is `1 2 +`, and the result is 3 with the error flag clear. -/
theorem C7_counterexample :
    unmatchedClose "1+2)".toList 0 = true ∧
    (infixToPostfix "1+2)".toList []).1 = "1 2 +".toList ∧
    calculate "1+2)".toList = (3, 0) ∧
    lineOutput "1+2)".toList [] [] = "3\n" := by
  decide

/-- C7 (amended): an opening parenthesis that is never closed is reported as an error,
unless the process is killed first.  For every input line in which some `(` is still
open at the end, conversion followed by evaluation, when the process survives it,
returns 0 with the error flag set, so the line's output is the generic error text,
whatever the stacks held before (as for `(1+2`).  The process does not survive when
the evaluation divides `INT_MIN` by -1 before it reaches the `(` token, as on
`((0-2147483647-1)/(0-1)`.  A closing parenthesis without partner is not reported by
itself. -/
theorem C7_open_parenthesis_is_error (line : List Char) (h : 0 < openCount line 0) :
    (calculateRun line ≠ none → calculateRun line = some (0, 1)) ∧
    (∀ (raw opStack : List Char) (valStack : List Int),
      (cstr raw).takeWhile (fun c => c ≠ '\n') = line →
      lineOutputRun raw opStack valStack ≠ none →
      lineOutputRun raw opStack valStack = some errorText) ∧
    lineOutputRun "(1+2".toList [] [] = some errorText ∧
    calculateRun "((0-2147483647-1)/(0-1)".toList = none := by
  obtain ⟨toks, h1, h2, h3⟩ := infixToPostfix_tokens line
  have hcalc : calculate line = (0, 1) := by
    unfold calculate
    simp only []
    rw [h1, evaluatePostfix, strtok_joinSp _ (fun t ht => cleanToken_of_isPostfixToken (h2 t ht))]
    have := evalLoop_open toks [] (h3 h)
    exact Prod.ext this.1 this.2
  have hrun : calculateRun line ≠ none → calculateRun line = some (0, 1) := by
    intro hne
    cases hr : calculateRun line with
    | none => exact absurd hr hne
    | some r => rw [calculateRun_some hr, hcalc]
  refine ⟨hrun, ?_, by decide, by decide⟩
  intro raw opStack valStack hraw hne
  rw [lineOutputRun_eq_calculateRun, hraw] at hne ⊢
  cases hr : calculateRun line with
  | none => rw [hr] at hne; exact absurd rfl hne
  | some r =>
    have := hrun (by rw [hr]; simp)
    rw [hr] at this
    cases this
    rfl

/-- C7 at the line `(1+2`: one parenthesis is left open, the process survives and the
error text is written, also after a line that left `+` and 4 on the stacks. -/
theorem C7_open_parenthesis_is_error_witness :
    openCount "(1+2".toList 0 = 1 ∧ calculateRun "(1+2".toList = some (0, 1) ∧
      lineOutputRun "(1+2\n".toList ['+'] [4] = some errorText :=
  ⟨by decide, (C7_open_parenthesis_is_error "(1+2".toList (by decide)).1 (by decide),
    (C7_open_parenthesis_is_error "(1+2".toList (by decide)).2.1 _ _ _ (by decide)
      (by decide)⟩

/-- C8: stack isolation.  Whatever the two stacks hold when a line is read, the
per-line step of `main` does exactly what it does from empty stacks: it leaves the
same result and stacks, writes the same line, or kills the process on the same lines.
The run of `main` on a sequence of reads is therefore the lines taken one by one,
each alone from empty stacks: every line is written as it is when processed alone, up
to a line on which the process is killed by dividing `INT_MIN` by -1. -/
theorem C8_stack_isolation (lines : List (List Char)) (opStack : List Char)
    (valStack : List Int) :
    (∀ line, processLineRun line opStack valStack = processLineRun line [] []) ∧
    (∀ line, lineOutputRun line opStack valStack = lineOutputRun line [] []) ∧
    mainRun lines opStack valStack
      = collectWritten (lines.map fun line => lineOutputRun line [] []) ∧
    ((∀ line ∈ lines, lineOutputRun line [] [] ≠ none) →
      mainRun lines opStack valStack = some (lines.map fun line => lineOutput line [] [])) ∧
    mainRun ["1+2".toList, "(0-2147483647-1)/(0-1)".toList, "3+4".toList] [] [] = none ∧
    mainRun ["10 / 0".toList, "(1+2".toList, "1 2".toList, "3+4".toList] [] []
      = some [errorText, errorText, "2\n", "7\n"] := by
  refine ⟨fun line => processLineRun_eq line opStack valStack,
    fun line => lineOutputRun_eq line opStack valStack,
    mainRun_eq lines opStack valStack, ?_, by decide, by decide⟩
  intro hlive
  rw [mainRun_eq]
  exact collectWritten_map lines hlive (fun line text h => lineOutputRun_some h)

/-- C8 at three lines read with `+` and 5 left on the stacks: an error line, a line
that leaves a value behind, and a sum, each written as when processed alone. -/
theorem C8_stack_isolation_witness :
    mainRun ["10 / 0".toList, "1 2".toList, "3+4".toList] ['+'] [5]
      = some [errorText, "2\n", "7\n"] :=
  (C8_stack_isolation ["10 / 0".toList, "1 2".toList, "3+4".toList] ['+'] [5]).2.2.2.1
    (by decide)

/-- C9: the text the converter writes, from an empty operator stack, for any line is a
sequence of tokens separated by exactly one space each: it does not begin with a
space, does not end with one, has no two spaces in a row, and each token is a
non-empty run of digits or a single character among `+ - * / (`. -/
theorem C9_output_format (line : List Char) :
    ∃ toks : List (List Char),
      (infixToPostfix line []).1 = joinSp toks ∧
      (∀ t ∈ toks, (t ≠ [] ∧ ∀ c ∈ t, isdigit c = true) ∨
        ∃ c, (c = '+' ∨ c = '-' ∨ c = '*' ∨ c = '/' ∨ c = '(') ∧ t = [c]) ∧
      (infixToPostfix line []).1.head? ≠ some ' ' ∧
      (infixToPostfix line []).1.getLast? ≠ some ' ' ∧
      noDoubleSpace (infixToPostfix line []).1 = true := by
  obtain ⟨toks, h1, h2, _⟩ := infixToPostfix_tokens line
  have hfmt := joinSp_format toks (fun t ht => cleanToken_of_isPostfixToken (h2 t ht))
  refine ⟨toks, by rw [h1], ?_, by rw [h1]; exact hfmt.1, by rw [h1]; exact hfmt.2.1,
    by rw [h1]; exact hfmt.2.2⟩
  intro t ht
  rcases h2 t ht with h | ⟨c, hc, rfl⟩
  · exact Or.inl h
  · refine Or.inr ⟨c, ?_, rfl⟩
    rcases hc with (h | h | h | h) | h <;> simp [h]

/-- C10: `precedence` is 1 for `+` and `-`, 2 for `*` and `/`, and 0 for every other
character, the two parentheses included. -/
theorem C10_precedence :
    precedence '+' = 1 ∧ precedence '-' = 1 ∧ precedence '*' = 2 ∧ precedence '/' = 2 ∧
    precedence '(' = 0 ∧ precedence ')' = 0 ∧
    ∀ c : Char, c ≠ '+' → c ≠ '-' → c ≠ '*' → c ≠ '/' → precedence c = 0 := by
  refine ⟨by decide, by decide, by decide, by decide, by decide, by decide, ?_⟩
  intro c h1 h2 h3 h4
  simp [precedence, h1, h2, h3, h4]

/-- C10 at the letter `x`, which is no operator: its precedence is 0. -/
theorem C10_precedence_witness : precedence 'x' = 0 :=
  C10_precedence.2.2.2.2.2.2 'x' (by decide) (by decide) (by decide) (by decide)

/-! ## The main loop, one iteration at a time -/

theorem infixLoop_succ (fuel : Nat) (input p s : List Char) :
    infixLoop (fuel + 1) input p s =
      match infixIter input p s with
      | none => (p, s)
      | some next => infixLoop fuel next.1 next.2.1 next.2.2 := by
  cases input with
  | nil => rfl
  | cons token rest =>
    simp only [infixLoop, infixIter]
    split_ifs <;> rfl

theorem scan_eq_iter (input p s : List Char) :
    scan input p s =
      match infixIter input p s with
      | none => (p, s)
      | some next => scan next.1 next.2.1 next.2.2 := by
  cases input with
  | nil => rfl
  | cons token rest =>
    rw [scan_cons]
    simp only [infixIter]
    split_ifs <;> rfl

/-- C11: both stacks are last-in-first-out with a sentinel on empty.  A push followed
by a pop returns the pushed element and restores the stack; `peekChar` after
`pushChar x` returns `x`; on an empty stack `popChar` and `peekChar` return NUL and
`popInt` returns 0, the stack staying empty. -/
theorem C11_stack_lifo (s : List Char) (x : Char) (v : List Int) (n : Int) :
    popChar (pushChar x s) = (x, s) ∧
    peekChar (pushChar x s) = x ∧
    popInt (pushInt n v) = (n, v) ∧
    popChar [] = ('\x00', []) ∧
    peekChar [] = '\x00' ∧
    popInt [] = (0, []) :=
  ⟨rfl, rfl, rfl, rfl, rfl, rfl⟩

/-! ## Literals and tokens -/

theorem literalValue_concat (d : List Char) (c : Char) :
    literalValue (d ++ [c]) = 10 * literalValue d + (c.toNat - 48) := by
  simp [literalValue, List.foldl_append]

theorem literalValue_eq_ofDigits (d : List Char) :
    literalValue d = Nat.ofDigits 10 ((d.map fun c => c.toNat - 48).reverse) := by
  induction d using List.reverseRecOn with
  | nil => rfl
  | append_singleton d c ih =>
    rw [literalValue_concat, ih]
    simp [Nat.ofDigits_cons]
    omega

theorem mem_joinSp {c : Char} (ts : List (List Char)) (h : c ∈ joinSp ts) :
    c = ' ' ∨ ∃ t ∈ ts, c ∈ t := by
  induction ts with
  | nil => simp [joinSp] at h
  | cons t ts ih =>
    cases ts with
    | nil => exact Or.inr ⟨t, List.mem_cons_self _ _, by simpa [joinSp] using h⟩
    | cons u ts =>
      simp only [joinSp, List.mem_append, List.mem_cons] at h
      rcases h with h | h | h
      · exact Or.inr ⟨t, List.mem_cons_self _ _, h⟩
      · exact Or.inl h
      · rcases ih h with h' | ⟨v, hv, hc⟩
        · exact Or.inl h'
        · exact Or.inr ⟨v, List.mem_cons_of_mem _ hv, hc⟩

theorem postTokens_shape (e : Expr) : e.wellFormed = true →
    ∀ t ∈ e.postTokens, IsLiteral t ∨ ∃ op, IsOperator op ∧ t = [op] := by
  induction e with
  | num ws ds =>
    intro hwf t ht
    simp only [Expr.wellFormed, Bool.and_eq_true, List.all_eq_true, Bool.not_eq_true',
      List.isEmpty_eq_false] at hwf
    simp only [Expr.postTokens, List.mem_singleton] at ht
    subst ht
    exact Or.inl ⟨hwf.1.2, hwf.2⟩
  | paren ws1 e ws2 ih =>
    intro hwf t ht
    simp only [Expr.wellFormed, Bool.and_eq_true] at hwf
    exact ih hwf.2 t ht
  | bin l ws op r ihl ihr =>
    intro hwf t ht
    simp only [Expr.wellFormed, Bool.and_eq_true, List.all_eq_true, decide_eq_true_eq] at hwf
    obtain ⟨⟨⟨⟨⟨_, hop⟩, hwl⟩, hwr⟩, _⟩, _⟩ := hwf
    simp only [Expr.postTokens, List.mem_append, List.mem_singleton] at ht
    rcases ht with (ht | ht) | ht
    · exact ihl hwl t ht
    · exact ihr hwr t ht
    · exact Or.inr ⟨op, hop, ht⟩

/-- C12, as stated, fails: the digit run `2147483648` is written as one token and
denotes 2147483648, which evaluating the line does not return. -/
theorem C12_counterexample :
    IsLiteral "2147483648".toList ∧
    (infixToPostfix "2147483648".toList []).1 = "2147483648".toList ∧
    literalValue "2147483648".toList = 2147483648 ∧
    (calculate "2147483648".toList).1 ≠ 2147483648 := by
  decide

/-- C12 (amended): an integer literal is a digit run of arbitrary length.  For every
non-empty string d of decimal digits the converter writes d, whatever its length, as a
single token (alone on the line, and in front of any text that does not begin with a
digit), and the number d denotes is its base-ten value; when that value does not
exceed `INT_MAX`, evaluating the line that consists of d alone returns it without
error. -/
theorem C12_literal (d : List Char) (hd : IsLiteral d) :
    (infixToPostfix d []).1 = d ∧
    strtok (infixToPostfix d []).1 = [d] ∧
    (∀ rest p s : List Char, StartsClean rest →
      scan (d ++ rest) p s = scan rest (p ++ d ++ [' ']) s) ∧
    literalValue d = Nat.ofDigits 10 ((d.map fun c => c.toNat - 48).reverse) ∧
    ((literalValue d : Int) ≤ INT_MAX → calculate d = ((literalValue d : Int), 0)) := by
  have hwf : (Expr.num [] d).wellFormed = true := wellFormed_num (by simp) hd
  have hconv := infixToPostfix_render _ hwf [] (by simp)
  simp only [Expr.render, List.nil_append, List.append_nil, Expr.postTokens, joinSp] at hconv
  refine ⟨by rw [hconv], ?_, fun rest p s hrest => scan_digits hd.1 hd.2 hrest p s,
    literalValue_eq_ofDigits d, ?_⟩
  · rw [hconv]
    exact strtok_joinSp [d] (postTokens_clean _ hwf)
  · intro hfit
    have := pipeline_render _ hwf (by simpa [Expr.fitsInt] using hfit) (literalValue d) rfl []
      (by simp)
    simp only [Expr.render, List.nil_append, List.append_nil] at this
    unfold calculate
    simp only []
    rw [this]

/-- C12 at the digit run `0042`: one token, value 42. -/
theorem C12_literal_witness :
    (infixToPostfix "0042".toList []).1 = "0042".toList ∧ calculate "0042".toList = (42, 0) :=
  ⟨(C12_literal "0042".toList (by decide)).1,
    (C12_literal "0042".toList (by decide)).2.2.2.2 (by decide)⟩

/-- C14: the converter implements shunting-yard.  For every well-formed expression
over non-negative integer literals, `+ - * /` and balanced parentheses, with optional
white space around the tokens, the text written from an empty operator stack is the
post-order traversal of the parse tree (left operand, right operand, operator), its
tokens separated by single spaces; no parenthesis occurs in it. -/
theorem C14_shunting_yard (e : Expr) (wsEnd : List Char) (hwf : e.wellFormed = true)
    (hws : ∀ c ∈ wsEnd, isspace c = true) :
    (infixToPostfix (e.render ++ wsEnd) []).1 = joinSp e.postTokens ∧
    strtok (infixToPostfix (e.render ++ wsEnd) []).1 = e.postTokens ∧
    '(' ∉ (infixToPostfix (e.render ++ wsEnd) []).1 ∧
    ')' ∉ (infixToPostfix (e.render ++ wsEnd) []).1 := by
  have hconv := infixToPostfix_render e hwf wsEnd hws
  have hno : ∀ c : Char, isdigit c = false → ¬ IsOperator c → c ≠ ' ' →
      c ∉ joinSp e.postTokens := by
    intro c hdig hop hsp hc
    rcases mem_joinSp _ hc with h | ⟨t, ht, hct⟩
    · exact hsp h
    · rcases postTokens_shape e hwf t ht with hl | ⟨op, hop', rfl⟩
      · rw [hl.2 c hct] at hdig
        cases hdig
      · simp only [List.mem_singleton] at hct
        exact hop (hct ▸ hop')
  rw [hconv]
  exact ⟨rfl, strtok_joinSp _ (postTokens_clean e hwf),
    hno '(' (by decide) (by decide) (by decide), hno ')' (by decide) (by decide) (by decide)⟩

/-- C14 at the line `7 - (1 + 2) * 3 / 4 `: the postfix text is `7 1 2 + 3 * 4 / -`. -/
theorem C14_shunting_yard_witness :
    (infixToPostfix "7 - (1 + 2) * 3 / 4 ".toList []).1 = "7 1 2 + 3 * 4 / -".toList :=
  (C14_shunting_yard
    (.bin (.num [] ['7']) [' '] '-'
      (.bin (.bin (.paren [' '] (.bin (.num [] ['1']) [' '] '+' (.num [' '] ['2'])) [])
        [' '] '*' (.num [' '] ['3'])) [' '] '/' (.num [' '] ['4'])))
    [' '] (by decide) (by decide)).1

/-! ## White space -/

theorem deleteSpace_cons_space {c : Char} (h : isspace c = true) (l : List Char) :
    deleteSpace (c :: l) = deleteSpace l := by
  simp [deleteSpace, List.filter_cons, h]

theorem deleteSpace_cons_keep {c : Char} (h : isspace c = false) (l : List Char) :
    deleteSpace (c :: l) = c :: deleteSpace l := by
  simp [deleteSpace, List.filter_cons, h]

theorem deleteSpace_digits {run : List Char} (h : ∀ c ∈ run, isdigit c = true)
    (rest : List Char) : deleteSpace (run ++ rest) = run ++ deleteSpace rest := by
  induction run with
  | nil => rfl
  | cons d run ih =>
    rw [List.cons_append, deleteSpace_cons_keep (isdigit_not_isspace (h d (List.mem_cons_self _ _))),
      ih (fun c hc => h c (List.mem_cons_of_mem _ hc)), List.cons_append]

theorem head_deleteSpace (l : List Char) :
    (deleteSpace l).head? = (l.dropWhile isspace).head? := by
  induction l with
  | nil => rfl
  | cons c l ih =>
    cases h : isspace c with
    | true => rw [deleteSpace_cons_space h, ih, List.dropWhile_cons, if_pos h]
    | false => rw [deleteSpace_cons_keep h, List.dropWhile_cons, if_neg (by simp [h])]; rfl

theorem startsClean_dropWhile_digits (l : List Char) : StartsClean (l.dropWhile isdigit) := by
  induction l with
  | nil => intro c hc; simp at hc
  | cons d l ih =>
    rw [List.dropWhile_cons]
    cases h : isdigit d with
    | true => simpa using ih
    | false => simpa using startsClean_of_cons h l

theorem splitsNumber_run {run : List Char} (hne : run ≠ [])
    (hd : ∀ c ∈ run, isdigit c = true) {rest : List Char}
    (h : splitsNumber (run ++ rest) = false) :
    gapThenDigit rest = false ∧ splitsNumber rest = false := by
  induction run with
  | nil => exact absurd rfl hne
  | cons d run ih =>
    have hd0 := hd d (List.mem_cons_self _ _)
    rw [List.cons_append, splitsNumber, Bool.or_eq_false_iff, hd0, Bool.true_and] at h
    cases run with
    | nil => exact h
    | cons d' run => exact ih (by simp) (fun c hc => hd c (List.mem_cons_of_mem _ hc)) h.2

theorem startsClean_deleteSpace {rest : List Char} (hclean : StartsClean rest)
    (hgap : gapThenDigit rest = false) : StartsClean (deleteSpace rest) := by
  intro c hc
  rw [head_deleteSpace] at hc
  cases rest with
  | nil => simp at hc
  | cons r rest =>
    cases hs : isspace r with
    | false =>
      rw [List.dropWhile_cons, if_neg (by simp [hs])] at hc
      exact hclean c hc
    | true =>
      simp only [gapThenDigit, hs, Bool.true_and] at hgap
      cases hdw : (r :: rest).dropWhile isspace with
      | nil => rw [hdw] at hc; simp at hc
      | cons x xs =>
        rw [hdw] at hc hgap
        simp only [List.head?_cons, Option.mem_def, Option.some.injEq] at hc
        subst hc
        exact hgap

theorem scan_deleteSpace : ∀ (n : Nat) (line : List Char), line.length ≤ n →
    splitsNumber line = false → ∀ p s : List Char,
    scan (deleteSpace line) p s = scan line p s := by
  intro n
  induction n with
  | zero =>
    intro line hlen _ p s
    have : line = [] := List.length_eq_zero.mp (Nat.le_zero.mp hlen)
    subst this
    rfl
  | succ n ih =>
    intro line hlen hsplit p s
    cases line with
    | nil => rfl
    | cons token rest =>
      have hrest : rest.length ≤ n := by simpa using hlen
      have hsplit' : splitsNumber rest = false := by
        rw [splitsNumber, Bool.or_eq_false_iff] at hsplit
        exact hsplit.2
      cases hsp : isspace token with
      | true =>
        rw [deleteSpace_cons_space hsp, scan_space hsp]
        exact ih rest hrest hsplit' p s
      | false =>
        cases hd : isdigit token with
        | true =>
          obtain ⟨run, hrun⟩ : ∃ run, run = (token :: rest).takeWhile isdigit := ⟨_, rfl⟩
          obtain ⟨tail, htail⟩ : ∃ tail, tail = (token :: rest).dropWhile isdigit := ⟨_, rfl⟩
          have hne : run ≠ [] := by rw [hrun]; simp [List.takeWhile_cons, hd]
          have hdig : ∀ c ∈ run, isdigit c = true := by
            intro c hc
            rw [hrun] at hc
            exact List.mem_takeWhile_imp hc
          have hline : token :: rest = run ++ tail := by
            rw [hrun, htail, List.takeWhile_append_dropWhile]
          have hclean : StartsClean tail := by
            rw [htail]
            exact startsClean_dropWhile_digits _
          have htl : tail.length ≤ n := by
            rw [htail]
            simp only [List.dropWhile_cons, hd, if_true]
            exact Nat.le_trans (length_dropWhile_le_self _ _) hrest
          rw [hline] at hsplit
          obtain ⟨hgap, hst⟩ := splitsNumber_run hne hdig hsplit
          rw [hline, deleteSpace_digits hdig,
            scan_digits hne hdig (startsClean_deleteSpace hclean hgap),
            scan_digits hne hdig hclean]
          exact ih tail htl hst _ s
        | false =>
          rw [deleteSpace_cons_keep hsp, scan_cons token (deleteSpace rest), scan_cons token rest]
          simp only [hsp, hd, Bool.false_eq_true, if_false]
          split_ifs
          · rfl
          all_goals exact ih rest hrest hsplit' _ _

/-- C13, as stated, fails: the line `1 2` is converted to `1 2`, the same line without
its white space, `12`, to `12`. -/
theorem C13_counterexample :
    deleteSpace "1 2".toList = "12".toList ∧
    (infixToPostfix "1 2".toList []).1 = "1 2".toList ∧
    (infixToPostfix (deleteSpace "1 2".toList) []).1 = "12".toList ∧
    (infixToPostfix "1 2".toList []).1 ≠ (infixToPostfix (deleteSpace "1 2".toList) []).1 := by
  decide

/-- C13 (amended): white space is noise everywhere except between two digits, where it
ends a literal.  For every input line in which no white space stands between two
digits, the converter produces the same postfix text, and leaves the same operator
stack, as for the line with all white-space characters deleted. -/
theorem C13_whitespace (line opStack : List Char) (h : splitsNumber line = false) :
    infixToPostfix (deleteSpace line) opStack = infixToPostfix line opStack := by
  rw [infixToPostfix_eq, infixToPostfix_eq,
    scan_deleteSpace line.length line (Nat.le_refl _) h]

/-- C13 at the line ` ( 1+ 2 ) *3 `: the postfix text is that of `(1+2)*3`. -/
theorem C13_whitespace_witness :
    (infixToPostfix "(1+2)*3".toList []).1 = (infixToPostfix " ( 1+ 2 ) *3 ".toList []).1 :=
  congrArg Prod.fst (C13_whitespace " ( 1+ 2 ) *3 ".toList [] (by decide))

/-! ## The evaluator, token by token -/

theorem evalLoop_eq_evalPrefix (toks : List (List Char)) : ∀ (err : Int) (vs : List Int),
    evalLoop toks err vs =
      match evalPrefix toks err vs with
      | .ok next => ((popInt next.2).1, next.1, (popInt next.2).2)
      | .error returned => returned := by
  induction toks with
  | nil => intro err vs; rfl
  | cons t toks ih =>
    intro err vs
    rw [evalLoop, evalPrefix]
    cases evalToken t err vs with
    | error r => rfl
    | ok next => exact ih next.1 next.2

theorem evalPrefix_append (a b : List (List Char)) : ∀ (err : Int) (vs : List Int),
    evalPrefix (a ++ b) err vs =
      match evalPrefix a err vs with
      | .ok next => evalPrefix b next.1 next.2
      | .error returned => .error returned := by
  induction a with
  | nil => intro err vs; rfl
  | cons t a ih =>
    intro err vs
    rw [List.cons_append, evalPrefix, evalPrefix]
    cases evalToken t err vs with
    | error r => rfl
    | ok next => exact ih next.1 next.2

theorem evalPrefix_zero (toks : List (List Char)) : ∀ (vs : List Int),
    (∀ next, evalPrefix toks 0 vs = .ok next → next.1 = 0) ∧
    (∀ r, evalPrefix toks 0 vs = .error r → r.1 = 0 ∧ r.2.1 = 1) := by
  induction toks with
  | nil =>
    intro vs
    refine ⟨fun next h => ?_, fun r h => ?_⟩
    · simp only [evalPrefix, Except.ok.injEq] at h
      rw [← h]
    · simp [evalPrefix] at h
  | cons t toks ih =>
    intro vs
    rw [evalPrefix]
    cases hstep : evalToken t 0 vs with
    | error r0 =>
      refine ⟨fun next h => ?_, fun r h => ?_⟩
      · simp at h
      · simp only [Except.error.injEq] at h
        rw [← h]
        exact evalToken_zero_error hstep
    | ok mid =>
      have h0 := evalToken_zero_ok hstep
      simp only []
      rw [h0]
      exact ih mid.2

/-- C15, as stated, fails: with 2147483647 pushed first and 1 pushed last, the token
`+` does not leave 2147483647 + 1 on the value stack. -/
theorem C15_counterexample :
    evalPrefix ["2147483647".toList, "1".toList] 0 [] = .ok (0, [1, 2147483647]) ∧
    (evaluatePostfix "2147483647 1 +".toList 0 []).1 ≠ 2147483647 + 1 ∧
    (evaluatePostfix "2147483647 1 +".toList 0 []).2.1 = 0 :=
  ⟨rfl, by decide, by decide⟩

/-- C15 (amended): operand order and rounding of a binary step.  When the evaluator
meets an operator token with b the most recently pushed value and a the value pushed
before it, it replaces the two by a + b, a - b, a * b or, for a non-zero b, the
quotient of a by b truncated toward zero, whenever that value lies in the range of
`int`; the operands are never swapped.  So 7 - 2 gives 5, 7 / 2 gives 3 and
(0 - 7) / 2 gives -3, not -4. -/
theorem C15_binary_step (a b : Int) (vs : List Int) :
    (INT_MIN ≤ a + b → a + b ≤ INT_MAX →
      evalToken ['+'] 0 (b :: a :: vs) = .ok (0, (a + b) :: vs)) ∧
    (INT_MIN ≤ a - b → a - b ≤ INT_MAX →
      evalToken ['-'] 0 (b :: a :: vs) = .ok (0, (a - b) :: vs)) ∧
    (INT_MIN ≤ a * b → a * b ≤ INT_MAX →
      evalToken ['*'] 0 (b :: a :: vs) = .ok (0, (a * b) :: vs)) ∧
    (b ≠ 0 → INT_MIN ≤ Int.tdiv a b → Int.tdiv a b ≤ INT_MAX →
      evalToken ['/'] 0 (b :: a :: vs) = .ok (0, Int.tdiv a b :: vs)) ∧
    evalToken ['-'] 0 [2, 7] = .ok (0, [5]) ∧
    evalToken ['/'] 0 [2, 7] = .ok (0, [3]) ∧
    evalToken ['/'] 0 [2, -7] = .ok (0, [-3]) ∧
    (evaluatePostfix "0 7 - 2 /".toList 0 []).1 = -3 := by
  refine ⟨?_, ?_, ?_, ?_, rfl, rfl, rfl, by decide⟩
  · intro h1 h2
    rw [evalToken_operator (by decide)]
    simp [applyOp, wrapInt_of_fits h1 h2]
  · intro h1 h2
    rw [evalToken_operator (by decide)]
    simp [applyOp, wrapInt_of_fits h1 h2]
  · intro h1 h2
    rw [evalToken_operator (by decide)]
    simp [applyOp, wrapInt_of_fits h1 h2]
  · intro hb h1 h2
    rw [evalToken_operator (by decide)]
    simp [applyOp, hb, wrapInt_of_fits h1 h2]

/-- C15 with 9 pushed before 4: `-` leaves 5, `/` leaves 2. -/
theorem C15_binary_step_witness :
    evalToken ['-'] 0 [4, 9, 1] = .ok (0, [5, 1]) ∧
    evalToken ['/'] 0 [4, 9, 1] = .ok (0, [2, 1]) :=
  ⟨(C15_binary_step 9 4 [1]).2.1 (by decide) (by decide),
    (C15_binary_step 9 4 [1]).2.2.2.1 (by decide) (by decide) (by decide)⟩

theorem evalPrefix_expr_shape (e : Expr) : e.wellFormed = true → ∀ vs : List Int,
    (∃ x, evalPrefix e.postTokens 0 vs = .ok (0, x :: vs)) ∨
    (∃ r, evalPrefix e.postTokens 0 vs = .error r) := by
  induction e with
  | num ws ds =>
    intro hwf vs
    simp only [Expr.wellFormed, Bool.and_eq_true, List.all_eq_true, Bool.not_eq_true',
      List.isEmpty_eq_false] at hwf
    left
    refine ⟨atoi ds, ?_⟩
    simp only [Expr.postTokens, evalPrefix]
    rw [evalToken_digits hwf.1.2 hwf.2]
  | paren ws1 e ws2 ih =>
    intro hwf vs
    simp only [Expr.wellFormed, Bool.and_eq_true] at hwf
    exact ih hwf.2 vs
  | bin l ws op r ihl ihr =>
    intro hwf vs
    simp only [Expr.wellFormed, Bool.and_eq_true, List.all_eq_true, decide_eq_true_eq] at hwf
    obtain ⟨⟨⟨⟨⟨_, hop⟩, hwl⟩, hwr⟩, _⟩, _⟩ := hwf
    simp only [Expr.postTokens, List.append_assoc, evalPrefix_append]
    rcases ihl hwl vs with ⟨x, hx⟩ | ⟨r1, hr1⟩
    · rw [hx]
      simp only []
      rcases ihr hwr (x :: vs) with ⟨y, hy⟩ | ⟨r2, hr2⟩
      · rw [hy]
        simp only [evalPrefix]
        rw [evalToken_operator hop]
        by_cases herr : (applyOp x y op 0).2 ≠ 0
        · rw [if_pos herr]
          exact Or.inr ⟨_, rfl⟩
        · rw [if_neg herr]
          simp only [ne_eq, not_not] at herr
          rw [herr]
          exact Or.inl ⟨_, rfl⟩
      · rw [hr2]
        exact Or.inr ⟨_, rfl⟩
    · rw [hr1]
      exact Or.inr ⟨_, rfl⟩

/-- C16, as stated, fails: the postfix text of the line `1 2` is `1 2`; the scan ends
without error with two elements on the value stack, 2 is returned and 1 stays on the
stack after the final pop. -/
theorem C16_counterexample :
    (infixToPostfix "1 2".toList []).1 = "1 2".toList ∧
    evalPrefix (strtok "1 2".toList) 0 [] = .ok (0, [2, 1]) ∧
    evaluatePostfix "1 2".toList 0 [] = (2, 0, [1]) :=
  ⟨by decide, rfl, by decide⟩

/-- C16 (amended): value-stack invariant on well-formed lines.  For every well-formed
expression over non-negative integer literals, `+ - * /` and balanced parentheses
whose evaluation from an empty value stack sets no error, exactly one element is on
the value stack when the scan of its postfix text ends, that element is the returned
result, and the value stack is empty after the final pop. -/
theorem C16_single_value (e : Expr) (wsEnd : List Char) (hwf : e.wellFormed = true)
    (hws : ∀ c ∈ wsEnd, isspace c = true)
    (herr : (evaluatePostfix (infixToPostfix (e.render ++ wsEnd) []).1 0 []).2.1 = 0) :
    ∃ x : Int,
      evalPrefix (strtok (infixToPostfix (e.render ++ wsEnd) []).1) 0 [] = .ok (0, [x]) ∧
      evaluatePostfix (infixToPostfix (e.render ++ wsEnd) []).1 0 [] = (x, 0, []) := by
  rw [evaluatePostfix] at herr
  rw [evaluatePostfix]
  rw [infixToPostfix_render e hwf wsEnd hws, strtok_joinSp _ (postTokens_clean e hwf)] at herr ⊢
  rw [evalLoop_eq_evalPrefix] at herr ⊢
  rcases evalPrefix_expr_shape e hwf [] with ⟨x, hx⟩ | ⟨r, hr⟩
  · exact ⟨x, hx, by rw [hx]; rfl⟩
  · rw [hr] at herr
    have := ((evalPrefix_zero e.postTokens []).2 r hr).2
    simp only [] at herr
    rw [herr] at this
    cases this

/-- C16 at the line `(1 + 2) * 3`: the scan ends with the single value 9. -/
theorem C16_single_value_witness :
    ∃ x : Int, evalPrefix (strtok "1 2 + 3 *".toList) 0 [] = .ok (0, [x]) ∧
      evaluatePostfix "1 2 + 3 *".toList 0 [] = (x, 0, []) :=
  C16_single_value
    (.bin (.paren [] (.bin (.num [] ['1']) [' '] '+' (.num [' '] ['2'])) []) [' '] '*'
      (.num [' '] ['3']))
    [] (by decide) (by decide) (by decide)

theorem infixToPostfix_spaces {ws : List Char} (hws : ∀ c ∈ ws, isspace c = true) :
    infixToPostfix ws [] = ([], []) := by
  have hscan : scan ws [] [] = ([], []) := by
    have := scan_spaces hws [] [] []
    rwa [List.append_nil, scan_nil] at this
  rw [infixToPostfix_eq, hscan]
  rfl

/-- C18: the final result of an error-free scan.  When the scan of a postfix text
reaches the end without error, the returned value is the top of the value stack if
there is one (the elements below stay where they are) and 0 if the stack is empty,
and the error flag is clear in both cases.  An empty or white-space-only line yields
result 0 with no error, and the output line `0`. -/
theorem C18_final_result (pfx : List Char) (vs0 vs : List Int) (err : Int)
    (h : evalPrefix (strtok pfx) 0 vs0 = .ok (err, vs)) :
    evaluatePostfix pfx 0 vs0 = (vs.head?.getD 0, 0, vs.tail) ∧
    (∀ ws : List Char, (∀ c ∈ ws, isspace c = true) →
      (infixToPostfix ws []).1 = [] ∧ calculate ws = (0, 0)) ∧
    (∀ (raw opStack : List Char) (valStack : List Int),
      (∀ c ∈ (cstr raw).takeWhile (fun c => c ≠ '\n'), isspace c = true) →
      lineOutput raw opStack valStack = "0\n") ∧
    calculate [] = (0, 0) := by
  have hws : ∀ ws : List Char, (∀ c ∈ ws, isspace c = true) →
      (infixToPostfix ws []).1 = [] ∧ calculate ws = (0, 0) := by
    intro ws hws
    refine ⟨by rw [infixToPostfix_spaces hws], ?_⟩
    unfold calculate
    simp only []
    rw [infixToPostfix_spaces hws]
    rfl
  refine ⟨?_, hws, ?_, rfl⟩
  · have h0 := (evalPrefix_zero (strtok pfx) vs0).1 _ h
    simp only [] at h0
    subst h0
    rw [evaluatePostfix, evalLoop_eq_evalPrefix, h]
    cases vs <;> rfl
  · intro raw opStack valStack hraw
    rw [lineOutput_eq, (hws _ hraw).2]
    rfl

/-- C18 at the postfix text `1 2 3`: 3 is returned, 2 and 1 stay on the stack. -/
theorem C18_final_result_witness :
    evaluatePostfix "1 2 3".toList 0 [] = (3, 0, [2, 1]) :=
  (C18_final_result "1 2 3".toList [] [3, 2, 1] 0 rfl).1

/-! ## Invariants of one iteration -/

theorem validStack_popChar {s : List Char} (hs : ValidStack s) : ValidStack (popChar s).2 := by
  cases s with
  | nil => exact hs
  | cons c s => exact fun d hd => hs d (List.mem_cons_of_mem _ hd)

theorem infixIter_valid {input p s : List Char} {next : List Char × List Char × List Char}
    (hs : ValidStack s) (h : infixIter input p s = some next) : ValidStack next.2.2 := by
  cases input with
  | nil => simp [infixIter] at h
  | cons token rest =>
    simp only [infixIter] at h
    split_ifs at h with h0 hsp hd hop hcl hstr
    all_goals simp only [Option.some.injEq] at h
    all_goals rw [← h]
    · exact hs
    · exact hs
    · exact validStack_cons (Or.inr hop) hs
    · simp only [closeLoop_eq]
      exact validStack_popChar (validStack_dropWhile hs _)
    · simp only [operatorLoop_eq, pushChar]
      exact validStack_cons (Or.inl (isOperator_of_strchr hstr h0)) (validStack_dropWhile hs _)
    · exact hs

theorem infixAfter_valid (k : Nat) : ∀ (input p s : List Char)
    (st : List Char × List Char × List Char), ValidStack s →
    infixAfter k input p s = some st → ValidStack st.2.2 := by
  induction k with
  | zero =>
    intro input p s st hs h
    simp only [infixAfter, Option.some.injEq] at h
    rw [← h]
    exact hs
  | succ k ih =>
    intro input p s st hs h
    rw [infixAfter] at h
    cases hstep : infixIter input p s with
    | none => rw [hstep] at h; cases h
    | some next =>
      rw [hstep] at h
      exact ih _ _ _ st (infixIter_valid hs hstep) h

theorem isStackChar_facts {c : Char} (h : IsStackChar c) :
    c ≠ ')' ∧ isdigit c = false ∧ isspace c = false ∧ c ≠ '\x00' := by
  rcases h with h | h
  · have := isOperator_facts h
    exact ⟨this.2.2.2.2.1, this.2.2.1, this.2.1, this.1⟩
  · subst h; decide

/-- C17: the operator-stack invariant.  Starting from an empty operator stack, after
any number of iterations of the main loop of the converter on any line, the operator
stack, and every tail of it that the popping loops pass through, holds only
characters among `+ - * / (`, never `)`, a digit, white space or NUL; and the final
loop leaves the operator stack empty when the converter returns. -/
theorem C17_operator_stack (line : List Char) :
    (∀ (k : Nat) (input p s t : List Char),
      infixAfter k line [] [] = some (input, p, s) → t <:+ s →
      ∀ c ∈ t, (c = '+' ∨ c = '-' ∨ c = '*' ∨ c = '/' ∨ c = '(') ∧
        c ≠ ')' ∧ isdigit c = false ∧ isspace c = false ∧ c ≠ '\x00') ∧
    (infixToPostfix line []).2 = [] := by
  constructor
  · intro k input p s t h ht c hc
    have hv := infixAfter_valid k line [] [] _ (fun c hc => by simp at hc) h
    have hcs : IsStackChar c := hv c (ht.subset hc)
    refine ⟨?_, isStackChar_facts hcs⟩
    rcases hcs with (h | h | h | h) | h <;> simp [h]
  · obtain ⟨toks, h1, _, _⟩ := infixToPostfix_tokens line
    rw [h1]

/-- C17 at the line `(1+2*` after five iterations: the stack holds `*`, `+`, `(`. -/
theorem C17_operator_stack_witness :
    infixAfter 5 "(1+2*".toList [] [] = some ([], "1 2 ".toList, ['*', '+', '(']) ∧
    ∀ c ∈ ['+', '('], (c = '+' ∨ c = '-' ∨ c = '*' ∨ c = '/' ∨ c = '(') ∧
      c ≠ ')' ∧ isdigit c = false ∧ isspace c = false ∧ c ≠ '\x00' :=
  ⟨by decide, (C17_operator_stack "(1+2*".toList).1 5 [] "1 2 ".toList ['*', '+', '(']
    ['+', '('] (by decide) (by decide)⟩

/-! ## The size of the output -/

theorem emitOps_length (l : List Char) : (emitOps l).length = 2 * l.length := by
  induction l with
  | nil => rfl
  | cons c l ih => simp only [emitOps, List.length_cons, ih]; omega

theorem length_takeWhile_add_dropWhile (f : Char → Bool) (l : List Char) :
    (l.takeWhile f).length + (l.dropWhile f).length = l.length := by
  rw [← List.length_append, List.takeWhile_append_dropWhile]

theorem cstr_cons {c : Char} (h : c ≠ '\x00') (l : List Char) : cstr (c :: l) = c :: cstr l := by
  simp [cstr, List.takeWhile_cons, h]

theorem cstr_digits {run : List Char} (h : ∀ c ∈ run, isdigit c = true) (tail : List Char) :
    cstr (run ++ tail) = run ++ cstr tail := by
  induction run with
  | nil => rfl
  | cons d run ih =>
    rw [List.cons_append, cstr_cons (ne_of_isdigit (h d (List.mem_cons_self _ _)) (by decide)),
      ih (fun c hc => h c (List.mem_cons_of_mem _ hc)), List.cons_append]

theorem length_popChar_le (s : List Char) : (popChar s).2.length ≤ s.length := by
  cases s with
  | nil => exact Nat.le_refl _
  | cons c s => exact Nat.le_succ _

theorem infixIter_bound {input p s : List Char} {next : List Char × List Char × List Char}
    (h : infixIter input p s = some next) :
    next.1.length < input.length ∧
    next.2.1.length + 2 * next.2.2.length + 2 * (cstr next.1).length
      ≤ p.length + 2 * s.length + 2 * (cstr input).length := by
  cases input with
  | nil => simp [infixIter] at h
  | cons token rest =>
    simp only [infixIter] at h
    split_ifs at h with h0 hsp hd hop hcl hstr
    all_goals simp only [Option.some.injEq] at h
    all_goals rw [← h]
    all_goals simp only [List.length_cons]
    · rw [cstr_cons h0]
      simp only [List.length_cons]
      omega
    · obtain ⟨run, hrun⟩ : ∃ run, run = (token :: rest).takeWhile isdigit := ⟨_, rfl⟩
      obtain ⟨tail, htail⟩ : ∃ tail, tail = (token :: rest).dropWhile isdigit := ⟨_, rfl⟩
      have hne : 1 ≤ run.length := by
        rw [hrun]
        simp [List.takeWhile_cons, hd]
      have hdig : ∀ c ∈ run, isdigit c = true := by
        intro c hc
        rw [hrun] at hc
        exact List.mem_takeWhile_imp hc
      have hline : token :: rest = run ++ tail := by
        rw [hrun, htail, List.takeWhile_append_dropWhile]
      have hlen : run.length + tail.length = rest.length + 1 := by
        rw [← List.length_append, ← hline, List.length_cons]
      rw [← hrun, ← htail, hline, cstr_digits hdig]
      simp only [List.length_append, List.length_cons, List.length_nil]
      omega
    · rw [cstr_cons h0]
      simp only [pushChar, List.length_cons]
      omega
    · rw [cstr_cons h0, closeLoop_eq]
      have h1 := length_takeWhile_add_dropWhile closeCond s
      have h2 := length_popChar_le (s.dropWhile closeCond)
      simp only [List.length_cons, List.length_append, emitOps_length]
      omega
    · rw [cstr_cons h0, operatorLoop_eq]
      have h1 := length_takeWhile_add_dropWhile (flushCond (precedence token)) s
      simp only [pushChar, List.length_cons, List.length_append, emitOps_length]
      omega
    · rw [cstr_cons h0]
      simp only [List.length_cons]
      omega

theorem infixAfter_bound (k : Nat) : ∀ (input p s : List Char)
    (st : List Char × List Char × List Char), infixAfter k input p s = some st →
    st.2.1.length + 2 * st.2.2.length + 2 * (cstr st.1).length
      ≤ p.length + 2 * s.length + 2 * (cstr input).length := by
  induction k with
  | zero =>
    intro input p s st h
    simp only [infixAfter, Option.some.injEq] at h
    rw [← h]
  | succ k ih =>
    intro input p s st h
    rw [infixAfter] at h
    cases hstep : infixIter input p s with
    | none => rw [hstep] at h; cases h
    | some next =>
      rw [hstep] at h
      exact Nat.le_trans (ih _ _ _ st h) (infixIter_bound hstep).2

theorem scan_bound : ∀ (n : Nat) (input : List Char), input.length ≤ n → ∀ p s : List Char,
    (scan input p s).1.length + 2 * (scan input p s).2.length
      ≤ p.length + 2 * s.length + 2 * (cstr input).length := by
  intro n
  induction n with
  | zero =>
    intro input hlen p s
    have : input = [] := List.length_eq_zero.mp (Nat.le_zero.mp hlen)
    subst this
    rw [scan_nil]
    exact Nat.le_add_right _ _
  | succ n ih =>
    intro input hlen p s
    rw [scan_eq_iter]
    cases hstep : infixIter input p s with
    | none => exact Nat.le_add_right _ _
    | some next =>
      have hb := infixIter_bound hstep
      exact Nat.le_trans (ih next.1 (by omega) next.2.1 next.2.2) hb.2

theorem writtenText_length (line : List Char) :
    (writtenText line []).length ≤ 2 * (cstr line).length := by
  have hb := scan_bound line.length line (Nat.le_refl _) [] []
  have ht := length_takeWhile_add_dropWhile drainCond (scan line [] []).2
  simp only [writtenText, drainLoop_eq, List.length_append, emitOps_length]
  simp only [List.length_nil] at hb
  omega

theorem trimTrailingSpace_length (p : List Char) : (trimTrailingSpace p).length ≤ p.length := by
  unfold trimTrailingSpace
  split
  · simp
  · exact Nat.le_refl _

/-- C20: the output-buffer bound.  For an input line of n characters the converter,
started from an empty operator stack, has written at most 2 * n characters after any
number of iterations of its main loop and when its final loop ends, and the text it
returns has at most 2 * n characters.  For a line that fits the line buffer of `main`
(n ≤ 99) every index written in the postfix buffer, the index of the terminating NUL
included, is below its size 3 * `MAX` = 300. -/
theorem C20_buffer_bound (line : List Char) :
    (∀ (k : Nat) (input p s : List Char), infixAfter k line [] [] = some (input, p, s) →
      p.length ≤ 2 * (cstr line).length) ∧
    (writtenText line []).length ≤ 2 * (cstr line).length ∧
    (infixToPostfix line []).1 = trimTrailingSpace (writtenText line []) ∧
    (infixToPostfix line []).1.length ≤ 2 * (cstr line).length ∧
    ((cstr line).length ≤ MAX - 1 →
      (writtenText line []).length < 3 * MAX ∧ (infixToPostfix line []).1.length < 3 * MAX) := by
  have hw := writtenText_length line
  have ht := trimTrailingSpace_length (writtenText line [])
  have heq : (infixToPostfix line []).1 = trimTrailingSpace (writtenText line []) := rfl
  refine ⟨?_, hw, heq, by rw [heq]; omega, ?_⟩
  · intro k input p s h
    have := infixAfter_bound k line [] [] _ h
    simp only [List.length_nil] at this
    omega
  · intro hn
    rw [heq]
    simp only [MAX] at hn ⊢
    omega

set_option maxRecDepth 100000 in
/-- C20 at a line of 99 characters, `1+` forty-nine times and a final `1`: 198
characters are written, 197 are returned, both below 300. -/
theorem C20_buffer_bound_witness :
    ((List.replicate 49 ['1', '+']).flatten ++ ['1']).length = 99 ∧
    (writtenText ((List.replicate 49 ['1', '+']).flatten ++ ['1']) []).length = 198 ∧
    (infixToPostfix ((List.replicate 49 ['1', '+']).flatten ++ ['1']) []).1.length = 197 ∧
    (writtenText ((List.replicate 49 ['1', '+']).flatten ++ ['1']) []).length < 3 * MAX ∧
    (infixToPostfix ((List.replicate 49 ['1', '+']).flatten ++ ['1']) []).1.length < 3 * MAX :=
  ⟨by decide, by decide, by decide,
    ((C20_buffer_bound ((List.replicate 49 ['1', '+']).flatten ++ ['1'])).2.2.2.2
      (by decide)).1,
    ((C20_buffer_bound ((List.replicate 49 ['1', '+']).flatten ++ ['1'])).2.2.2.2
      (by decide)).2⟩

/-! ## When the error flag is set -/

theorem strtokFrom_clean (input : List Char) : ∀ cur : List Char,
    (∀ c ∈ input, c ≠ '\x00') → (∀ c ∈ cur, c ≠ ' ' ∧ c ≠ '\x00') →
    ∀ t ∈ strtokFrom input cur, CleanToken t := by
  induction input with
  | nil =>
    intro cur _ hcur t ht
    rw [strtokFrom] at ht
    split_ifs at ht with h
    · simp at ht
    · simp only [List.mem_singleton] at ht
      subst ht
      exact ⟨h, hcur⟩
  | cons c rest ih =>
    intro cur hin hcur t ht
    have hrest : ∀ d ∈ rest, d ≠ '\x00' := fun d hd => hin d (List.mem_cons_of_mem _ hd)
    rw [strtokFrom] at ht
    split_ifs at ht with h1 h2
    · exact ih [] hrest (fun d hd => by simp at hd) t ht
    · rcases List.mem_cons.mp ht with h | h
      · subst h; exact ⟨h2, hcur⟩
      · exact ih [] hrest (fun d hd => by simp at hd) t h
    · refine ih (cur ++ [c]) hrest (fun d hd => ?_) t ht
      rcases List.mem_append.mp hd with h | h
      · exact hcur d h
      · simp only [List.mem_singleton] at h
        subst h
        exact ⟨h1, hin d (List.mem_cons_self _ _)⟩

theorem strtok_clean (pfx : List Char) : ∀ t ∈ strtok pfx, CleanToken t := by
  apply strtokFrom_clean
  · intro c hc
    have := List.mem_takeWhile_imp hc
    simpa using this
  · intro c hc
    simp at hc

theorem applyOp_err_iff (a b : Int) (op : Char) :
    (applyOp a b op 0).2 ≠ 0 ↔ op = '/' ∧ b = 0 := by
  unfold applyOp
  split_ifs with h1 h2 h3 h4 h5
  · subst h1; simp
  · subst h2; simp
  · subst h3; simp
  · simp [h4, h5]
  · simp [h5]
  · simp [h4]

theorem popInt_fst_eq_zero (vs : List Int) :
    (popInt vs).1 = 0 ↔ (vs.head? = some 0 ∨ vs = []) := by
  cases vs with
  | nil => simp [popInt]
  | cons v vs => simp [popInt]

theorem operatorTest_iff {t : List Char} (ht : CleanToken t) :
    (t.length = 1 ∧ strchr operators (t.getD 0 '\x00') = true) ↔ isOperatorToken t = true := by
  constructor
  · rintro ⟨hlen, hstr⟩
    obtain ⟨c, rfl⟩ := List.length_eq_one.mp hlen
    have hc := (ht.2 c (List.mem_singleton_self c)).2
    have hop := isOperator_of_strchr (by simpa using hstr) hc
    rcases hop with h | h | h | h <;> subst h <;> decide
  · intro h
    simp only [isOperatorToken, Bool.or_eq_true, decide_eq_true_eq] at h
    rcases h with ((h | h) | h) | h <;> subst h <;> decide

theorem evalToken_error_iff {t : List Char} (ht : CleanToken t) (vs : List Int) :
    (∃ r, evalToken t 0 vs = .error r) ↔
      ((t = ['/'] ∧ (vs.head? = some 0 ∨ vs = [])) ∨
        (isNumberToken t = false ∧ isOperatorToken t = false)) := by
  have hnum : (isdigit (t.getD 0 '\x00') = true ∨
      (t.getD 0 '\x00' = '-' ∧ isdigit (t.getD 1 '\x00') = true)) ↔ isNumberToken t = true := by
    simp [isNumberToken]
  simp only [evalToken]
  by_cases h1 : isdigit (t.getD 0 '\x00') = true ∨
      (t.getD 0 '\x00' = '-' ∧ isdigit (t.getD 1 '\x00') = true)
  · rw [if_pos h1]
    have hn := hnum.mp h1
    constructor
    · rintro ⟨r, hr⟩
      cases hr
    · rintro (⟨h, _⟩ | ⟨h, _⟩)
      · subst h
        exact absurd hn (by decide)
      · rw [hn] at h
        cases h
  · rw [if_neg h1]
    have hn : isNumberToken t = false := by
      cases hb : isNumberToken t with
      | false => rfl
      | true => exact absurd (hnum.mpr hb) h1
    by_cases h2 : t.length = 1 ∧ strchr operators (t.getD 0 '\x00') = true
    · rw [if_pos h2]
      have hop := (operatorTest_iff ht).mp h2
      by_cases h3 : (applyOp (popInt (popInt vs).2).1 (popInt vs).1 (t.getD 0 '\x00') 0).2 ≠ 0
      · rw [if_pos h3]
        refine ⟨fun _ => Or.inl ?_, fun _ => ⟨_, rfl⟩⟩
        obtain ⟨hdiv, hb⟩ := (applyOp_err_iff _ _ _).mp h3
        obtain ⟨c, rfl⟩ := List.length_eq_one.mp h2.1
        simp only [List.getD_cons_zero] at hdiv
        exact ⟨by rw [hdiv], (popInt_fst_eq_zero vs).mp hb⟩
      · rw [if_neg h3]
        constructor
        · rintro ⟨r, hr⟩
          cases hr
        · rintro (⟨h, hz⟩ | ⟨_, h⟩)
          · subst h
            exact absurd ((applyOp_err_iff _ _ _).mpr
              ⟨rfl, (popInt_fst_eq_zero vs).mpr hz⟩) h3
          · rw [hop] at h
            cases h
    · rw [if_neg h2]
      refine ⟨fun _ => Or.inr ⟨hn, ?_⟩, fun _ => ⟨_, rfl⟩⟩
      cases hb : isOperatorToken t with
      | false => rfl
      | true => exact absurd ((operatorTest_iff ht).mpr hb) h2

theorem evalLoop_error_iff (toks : List (List Char)) : (∀ t ∈ toks, CleanToken t) →
    ∀ vs : List Int, (evalLoop toks 0 vs).2.1 ≠ 0 ↔ errorReached toks vs = true := by
  induction toks with
  | nil => intro _ vs; simp [evalLoop, errorReached]
  | cons t toks ih =>
    intro hclean vs
    have ht := hclean t (List.mem_cons_self _ _)
    have hrest : ∀ u ∈ toks, CleanToken u := fun u hu => hclean u (List.mem_cons_of_mem _ hu)
    have hiff := evalToken_error_iff ht vs
    rw [evalLoop, errorReached]
    cases hstep : evalToken t 0 vs with
    | error r =>
      have hcond := hiff.mp ⟨r, hstep⟩
      rw [if_pos hcond]
      have := (evalToken_zero_error hstep).2
      simp [this]
    | ok next =>
      have hcond : ¬ ((t = ['/'] ∧ (vs.head? = some 0 ∨ vs = [])) ∨
          (isNumberToken t = false ∧ isOperatorToken t = false)) := by
        intro hc
        obtain ⟨r, hr⟩ := hiff.mpr hc
        rw [hstep] at hr
        cases hr
      rw [if_neg hcond]
      have h0 := evalToken_zero_ok hstep
      simp only []
      rw [h0]
      exact ih hrest next.2

theorem evalLoop_err_values (toks : List (List Char)) (vs : List Int) :
    (evalLoop toks 0 vs).2.1 = 0 ∨ (evalLoop toks 0 vs).2.1 = 1 := by
  rw [evalLoop_eq_evalPrefix]
  cases h : evalPrefix toks 0 vs with
  | error r => exact Or.inr ((evalPrefix_zero toks vs).2 r h).2
  | ok next => exact Or.inl ((evalPrefix_zero toks vs).1 next h)

/-- C19, as stated, fails: on the postfix text `/`, which is what the line `/` is
converted to, no value has been pushed when the operator token `/` is reached and
every token is an operator, yet the error flag is set. -/
theorem C19_counterexample :
    (infixToPostfix "/".toList []).1 = "/".toList ∧
    strtok "/".toList = [['/']] ∧
    errorReachedStated (strtok "/".toList) [] = false ∧
    evaluatePostfix "/".toList 0 [] = (0, 1, []) := by
  decide

/-- C19 (amended): exact characterisation of the error signal.  For every
space-separated token sequence, the evaluator started with the error signal clear
sets it if and only if, scanning the tokens from left to right, it reaches either a
`/` token while the most recently pushed value is 0 or the value stack is empty (the
0 that popping an empty stack returns is the divisor), or a token that is neither a
number (first character a digit, or `-` followed by a digit) nor a single character
among `+ - * /`.  The flag is then 1; popping an empty value stack sets no flag by
itself. -/
theorem C19_error_signal (pfx : List Char) (vs0 : List Int) :
    ((evaluatePostfix pfx 0 vs0).2.1 ≠ 0 ↔ errorReached (strtok pfx) vs0 = true) ∧
    ((evaluatePostfix pfx 0 vs0).2.1 = 0 ∨ (evaluatePostfix pfx 0 vs0).2.1 = 1) ∧
    evaluatePostfix [] 0 [] = (0, 0, []) ∧
    evaluatePostfix "+".toList 0 [] = (0, 0, []) :=
  ⟨evalLoop_error_iff _ (strtok_clean pfx) vs0, evalLoop_err_values _ vs0, rfl, by decide⟩

end Calculator
